import Mathlib

set_option maxHeartbeats 1000000
set_option maxRecDepth 10000

namespace Mnemo

/- Shallow embedding of src/Mnemonics/rag_mnemonics.py.  Python strings are
   modelled as lists of unicode characters; Python len/slicing act on code
   points, which matches List Char lengths. -/

abbrev PyStr := List Char

def str (s : String) : PyStr := s.data

/-- p is an initial segment of s. -/
def startsWith : PyStr → PyStr → Bool
  | [], _ => true
  | _ :: _, [] => false
  | p :: ps, c :: cs => p == c && startsWith ps cs

/-- Characters stripped by Python str.strip() and matched by the re module
    class \s on str patterns (the Unicode whitespace set). -/
def isPySpace (c : Char) : Bool :=
  c == ' ' || c == '\t' || c == '\n' || c == '\r' || c.toNat == 11 || c.toNat == 12 ||
  (28 ≤ c.toNat && c.toNat ≤ 31) || c.toNat == 133 || c.toNat == 160 || c.toNat == 5760 ||
  (8192 ≤ c.toNat && c.toNat ≤ 8202) || c.toNat == 8232 || c.toNat == 8233 ||
  c.toNat == 8239 || c.toNat == 8287 || c.toNat == 12288

/-- The character ranges of _CJK_RE in rag_mnemonics.py. -/
def isCJKChar (c : Char) : Bool :=
  (0x3040 ≤ c.toNat && c.toNat ≤ 0x30FF) || (0x3400 ≤ c.toNat && c.toNat ≤ 0x4DBF) ||
  (0x4E00 ≤ c.toNat && c.toNat ≤ 0x9FFF) || (0xF900 ≤ c.toNat && c.toNat ≤ 0xFAFF)

def isSentencePunct (c : Char) : Bool := c == '.' || c == '!' || c == '?'

def isTerminalPunct (c : Char) : Bool := c == '.' || c == '!' || c == '?' || c == '…'

/-- The character set of the rstrip(" ,;:") call in _one_sentence. -/
def isTruncStrip (c : Char) : Bool := c == ' ' || c == ',' || c == ';' || c == ':'

def lstrip (s : PyStr) : PyStr := s.dropWhile isPySpace

def rstrip (s : PyStr) : PyStr := (s.reverse.dropWhile isPySpace).reverse

def pyStrip (s : PyStr) : PyStr := rstrip (lstrip s)

def rstripTrunc (s : PyStr) : PyStr := (s.reverse.dropWhile isTruncStrip).reverse

/-- _strip_cjk: _CJK_RE.sub("", s) removes every CJK-range character. -/
def strip_cjk (s : PyStr) : PyStr := s.filter (fun c => !isCJKChar c)

/-- re.sub(r"\s+", " ", s): each maximal run of whitespace becomes one space. -/
def collapseWs : PyStr → PyStr
  | [] => []
  | [c] => if isPySpace c then [' '] else [c]
  | c :: d :: cs =>
    if isPySpace c then
      if isPySpace d then collapseWs (d :: cs)
      else ' ' :: collapseWs (d :: cs)
    else c :: collapseWs (d :: cs)

def isNonAscii (c : Char) : Bool := 127 < c.toNat

/-- re.sub(r"[^\x00-\x7F]+", " ", s): each maximal run of non-ASCII characters
    becomes one space. -/
def collapseNonAscii : PyStr → PyStr
  | [] => []
  | [c] => if isNonAscii c then [' '] else [c]
  | c :: d :: cs =>
    if isNonAscii c then
      if isNonAscii d then collapseNonAscii (d :: cs)
      else ' ' :: collapseNonAscii (d :: cs)
    else c :: collapseNonAscii (d :: cs)

/-- _to_ascii. -/
def to_ascii (s : PyStr) : PyStr := pyStrip (collapseNonAscii s)

/-- Scanner for re.sub(r"<[^>]*>", "", s).  The first argument holds the
    characters consumed since an unclosed "<" (in reverse); they are dropped
    when a ">" closes the tag and restored verbatim at the end of the input
    otherwise, since a "<" with no later ">" never matches. -/
def rtAux : Option PyStr → PyStr → PyStr
  | none, [] => []
  | some pend, [] => pend.reverse
  | none, c :: cs => if c = '<' then rtAux (some [c]) cs else c :: rtAux none cs
  | some pend, c :: cs => if c = '>' then rtAux none cs else rtAux (some (c :: pend)) cs

/-- re.sub(r"<[^>]*>", "", s): drop each leftmost "<" up to the next ">". -/
def removeTags (s : PyStr) : PyStr := rtAux none s

/-- parts[0] of re.split(r"(?<=[.!?])\s+", t): the prefix up to and including
    the first sentence punctuation that is immediately followed by whitespace. -/
def firstSentence : PyStr → PyStr
  | [] => []
  | [c] => [c]
  | c :: d :: cs =>
    if isSentencePunct c && isPySpace d then [c]
    else c :: firstSentence (d :: cs)

def notArrow (c : Char) : Bool := c != '→'

/-- _one_sentence before the length cap: strip, drop tags, cut at the first
    arrow, keep the first sentence, collapse whitespace, strip again. -/
def oneSentenceCore (text : PyStr) : PyStr :=
  pyStrip (collapseWs (firstSentence ((removeTags (pyStrip text)).takeWhile notArrow)))

/-- _one_sentence. -/
def one_sentence (text : PyStr) (maxChars : Nat) : PyStr :=
  let one := oneSentenceCore text
  if maxChars < one.length then rstripTrunc (one.take maxChars) ++ ['…'] else one

/-- Python str.lower restricted to ASCII letters (the inputs this program
    lowercases are English meaning strings). -/
def lowerChar (c : Char) : Char :=
  match c with
  | 'A' => 'a' | 'B' => 'b' | 'C' => 'c' | 'D' => 'd' | 'E' => 'e' | 'F' => 'f'
  | 'G' => 'g' | 'H' => 'h' | 'I' => 'i' | 'J' => 'j' | 'K' => 'k' | 'L' => 'l'
  | 'M' => 'm' | 'N' => 'n' | 'O' => 'o' | 'P' => 'p' | 'Q' => 'q' | 'R' => 'r'
  | 'S' => 's' | 'T' => 't' | 'U' => 'u' | 'V' => 'v' | 'W' => 'w' | 'X' => 'x'
  | 'Y' => 'y' | 'Z' => 'z' | _ => c

def pyLower (s : PyStr) : PyStr := s.map lowerChar

def isEqOrSpace (c : Char) : Bool := c == '=' || isPySpace c

/-- re.sub(r"^[=\s]+", "", s). -/
def dropEqWs (s : PyStr) : PyStr := s.dropWhile isEqOrSpace

/-- Word characters for the re module \b on str patterns, restricted to the
    ASCII word characters plus the CJK ranges this program manipulates. -/
def isWordChar (c : Char) : Bool :=
  ('a' ≤ c && c ≤ 'z') || ('A' ≤ c && c ≤ 'Z') || ('0' ≤ c && c ≤ '9') || c == '_' ||
  isCJKChar c

/-- \b between the last character of the matched literal and what follows. -/
def boundaryAfter (prev : Char) (next : Option Char) : Bool :=
  match next with
  | none => isWordChar prev
  | some n => isWordChar prev != isWordChar n

/-- Case-insensitive literal match at the front of s (re.I on an escaped
    literal). -/
def ciPrefixB (pat s : PyStr) : Bool := pyLower (s.take pat.length) == pyLower pat

/-- The \s*:?\s* tail of one repetition: spaces were already dropped, then an
    optional colon followed by further spaces. -/
def afterColon (r1 : PyStr) : PyStr :=
  match r1 with
  | ':' :: t => t.dropWhile isPySpace
  | _ => r1

/-- One iteration of the group in re.sub(rf"^(?:pat\b\s*:?\s*)+", "", s, re.I):
    the literal, a word boundary, optional spaces, an optional colon, spaces. -/
def stripRep1 (pat s : PyStr) : Option PyStr :=
  if pat.isEmpty then none
  else if ciPrefixB pat s then
    if boundaryAfter (pat.getLastD ' ') (s.drop pat.length).head? then
      some (afterColon ((s.drop pat.length).dropWhile isPySpace))
    else none
  else none

def stripRepsFuel : Nat → PyStr → PyStr → PyStr
  | 0, _, s => s
  | Nat.succ n, pat, s =>
    match stripRep1 pat s with
    | none => s
    | some s2 => stripRepsFuel n pat s2

/-- The greedy one-or-more repetition of stripRep1 (the whole ^(?:...)+ sub). -/
def stripReps (pat s : PyStr) : PyStr := stripRepsFuel (s.length + 1) pat s

/-- Whether re.search(rf"k\s*=\s*.*?→.*", text) matches at this position:
    the kanji literal, optional spaces, "=", then some later arrow.  The
    searched text has been whitespace-collapsed, so it contains no newline and
    "." matches every remaining character. -/
def arrowMatchTail (k s : PyStr) : Bool :=
  startsWith k s &&
    (match (s.drop k.length).dropWhile isPySpace with
     | '=' :: r2 => r2.contains '→'
     | _ => false)

/-- The leftmost match of re.search, extended to the end of the text by the
    trailing greedy ".*" of the pattern. -/
def findArrowLine (k : PyStr) : PyStr → Option PyStr
  | [] => none
  | c :: cs => if arrowMatchTail k (c :: cs) then some (c :: cs) else findArrowLine k cs

def joinSep (sep : PyStr) : List PyStr → PyStr
  | [] => []
  | [x] => x
  | x :: y :: xs => x ++ sep ++ joinSep sep (y :: xs)

def terminalLastB (s : PyStr) : Bool :=
  match s.getLast? with
  | some c => isTerminalPunct c
  | none => false

/-- Line 166-168: the lhs stripper runs only when lhs is truthy. -/
def stripLhsStage (lhs r : PyStr) : PyStr :=
  if lhs.isEmpty then r else stripReps (pyStrip lhs) r

/-- Line 169-171: the meanings stripper runs only when meanings is truthy. -/
def stripMeaningsStage (meanings r : PyStr) : PyStr :=
  if meanings.isEmpty then r else stripReps (pyStrip meanings) r

/-- Lines 173-174: when the sanitized right side became empty, rebuild it from
    the meanings. -/
def refillEmpty (meanings r : PyStr) : PyStr :=
  if r.isEmpty then one_sentence (str "Represents " ++ pyLower meanings ++ str ".") 120 else r

/-- Lines 175-176: append "." unless the line already ends in .!?… -/
def forceTerminal (r : PyStr) : PyStr :=
  if !r.isEmpty && !terminalLastB r then r ++ ['.'] else r

/-- The right-hand-side sanitization of generate_mnemonic (lines 162-176):
    strip CJK, reduce to one capped sentence, drop leading "="/spaces, strip
    leading lhs and meanings repetitions, strip, refill if empty, and force
    terminal punctuation. -/
def normRhs (lhs meanings right : PyStr) : PyStr :=
  forceTerminal (refillEmpty meanings (pyStrip (stripMeaningsStage meanings
    (stripLhsStage lhs (dropEqWs (one_sentence (strip_cjk right) 120))))))

/-- Lines 161-177: split at the first arrow, sanitize the right side,
    reassemble. -/
def sanitizeArrow (lhs meanings line : PyStr) : PyStr :=
  let left := line.takeWhile notArrow
  let right := (line.dropWhile notArrow).drop 1
  pyStrip left ++ str " → " ++ normRhs lhs meanings right

/-- Line 158: the manually built fallback line used when no arrow-style match
    is found in the generated text. -/
def synthLine (k lhs meanings : PyStr) : PyStr :=
  k ++ str " = " ++ lhs ++ str " → Represents " ++ pyLower meanings ++ str " through its parts."

/-- Lines 181-182: the fallback line returned when the generation try-block
    raises. -/
def fallbackLine (k lhs meanings : PyStr) : PyStr :=
  k ++ str " = " ++ (if !lhs.isEmpty then lhs else if !meanings.isEmpty then meanings else str "—")
    ++ str " → Represents "
    ++ (if !(pyLower meanings).isEmpty then pyLower meanings else str "meaning")
    ++ str " through its parts."

/-- Lines 153-158: extract the matched arrow-style line or synthesize one. -/
def extractLine (k lhs meanings text : PyStr) : PyStr :=
  match findArrowLine k text with
  | some m => pyStrip m
  | none => synthLine k lhs meanings

structure KanjiDetails where
  meanings : List PyStr
  wk_radicals : List PyStr

/-- _KANJI_DATA.get(k), with a missing or falsy record modelled as none. -/
def lookupStore : List (PyStr × KanjiDetails) → PyStr → Option KanjiDetails
  | [], _ => none
  | (key, d) :: rest, k => if key = k then some d else lookupStore rest k

/-- The lazily built module state: _RADICAL_DOCS plus the embedder/index pair,
    both present or both absent.  Vectors are abstract. -/
structure RagState where
  radicalDocs : List PyStr
  faissIndex : Option (List (List Int))

def buildDoc (row : PyStr × PyStr) : PyStr :=
  str "Radical: " ++ to_ascii row.1 ++ str "\nMeaning: " ++ to_ascii row.2

/-- _ensure_radical_index: docs and one embedding vector per doc when the CSV
    snapshot is present, empty docs and no index when it is absent.  The
    embedder is modelled as an abstract per-document encoding function. -/
def ensure_radical_index (csv : Option (List (PyStr × PyStr))) (embed : PyStr → List Int) : RagState :=
  match csv with
  | some rows =>
    let docs := rows.map buildDoc
    { radicalDocs := docs, faissIndex := some (docs.map embed) }
  | none => { radicalDocs := [], faissIndex := none }

/-- _retrieve_relevant_radicals, with the faiss search result I[0] passed in
    as a list of (possibly out-of-range, possibly -1) integer indices. -/
def retrieve_relevant_radicals (st : RagState) (idxs : List Int) : List PyStr :=
  if st.radicalDocs.isEmpty then []
  else
    match st.faissIndex with
    | none => []
    | some _ =>
      idxs.filterMap (fun i =>
        if 0 ≤ i ∧ i < (st.radicalDocs.length : Int) then st.radicalDocs.get? i.toNat else none)

/-- The prompt f-string of generate_mnemonic. -/
def buildPrompt (k lhs meanings radical_context : PyStr) : PyStr :=
  str "\nYou are a Kanji mnemonic generator.\nCombine the radicals’ meanings to create a short, logical English mnemonic.\n\nFollow this exact one-line format:\n"
    ++ k ++ str " = " ++ lhs
    ++ str " → <short, clear mnemonic>\n\nRules:\n- Use ONLY English words and ASCII punctuation. Never include Japanese/Chinese (kanji, kana, hanzi) in the mnemonic.\n- Ignore any non-English visual descriptions; translate their ideas into simple English or omit them.\n- Keep it under 120 characters.\n- Output exactly one line. No extra text.\n\nExample:\n買 = Net + Shell → Buying involves catching valuable shells in a net.\n\nContext about the radicals (English-only):\n"
    ++ radical_context ++ str "\n\nNow generate for " ++ k ++ str " (\"" ++ meanings ++ str "\").\n"

/-- generate_mnemonic.  The generator pipeline is an abstract function from
    the prompt to either the generated continuation or none for a raised
    exception (the only failure source inside the try-block). -/
def generate_mnemonic (kanjiData : List (PyStr × KanjiDetails)) (st : RagState)
    (search : PyStr → List Int) (pipe : PyStr → Option PyStr) (kanji : PyStr) : PyStr :=
  let k := pyStrip kanji
  match lookupStore kanjiData k with
  | none => str "Kanji " ++ k ++ str " not found."
  | some details =>
    let meanings := joinSep (str ", ") details.meanings
    let lhs := if !details.wk_radicals.isEmpty then joinSep (str " + ") details.wk_radicals else meanings
    let radical_context := joinSep (str "\n\n")
      (retrieve_relevant_radicals st (search (joinSep (str " ") details.wk_radicals)))
    let prompt := buildPrompt k lhs meanings radical_context
    match pipe prompt with
    | none => fallbackLine k lhs meanings
    | some raw =>
      let text := collapseWs ((pyStrip raw).map (fun c => if c = '|' then ' ' else c))
      let line := extractLine k lhs meanings text
      if line.contains '→' then sanitizeArrow lhs meanings line else line

/-- The shape ^k = .+ → .+$ of the claimed MnemonicLine invariant: an
    occurrence of " → " with at least one character before and after it. -/
def properArrowB (s : PyStr) : Bool :=
  (List.range s.length).any (fun i =>
    decide (0 < i) && startsWith (str " → ") (s.drop i) && decide (i + 3 < s.length))

/-- The claimed MnemonicLine well-formedness: matches ^k = .+ → .+$, no CJK
    after the (first) arrow, ends in terminal punctuation. -/
def validMnemonicLine (k line : PyStr) : Bool :=
  startsWith (k ++ str " = ") line &&
  properArrowB (line.drop (k.length + 3)) &&
  ((line.dropWhile notArrow).drop 1).all (fun c => !isCJKChar c) &&
  terminalLastB line

/-- Every "<" in s has no later ">": then re.sub(r"<[^>]*>", "", ·) cannot
    match anywhere in s. -/
def noTagPair : PyStr → Bool
  | [] => true
  | c :: cs => if c = '<' then !cs.any (fun x => x == '>') else noTagPair cs

/-- No sentence punctuation immediately followed by whitespace: then the
    first-sentence split keeps s whole. -/
def noSentenceBreak : PyStr → Bool
  | [] => true
  | [_] => true
  | c :: d :: cs => (!(isSentencePunct c && isPySpace d)) && noSentenceBreak (d :: cs)

/-- Whitespace-collapsed shape: every whitespace character is a plain space
    and no two spaces are adjacent. -/
def wsNormal : PyStr → Bool
  | [] => true
  | [c] => !isPySpace c || c == ' '
  | c :: d :: cs => (!isPySpace c || c == ' ') && (!(c == ' ' && d == ' ')) && wsNormal (d :: cs)

def nonCJK (s : PyStr) : Bool := s.all (fun c => !isCJKChar c)

def arrowFree (s : PyStr) : Bool := s.all notArrow

example : one_sentence (str "Hello world. More text here.") 120 = str "Hello world." := by decide

example : sanitizeArrow (str "Net + Shell") (str "buy, purchase")
    (str "買 = Net + Shell → Buying involves catching valuable shells in a net.")
    = str "買 = Net + Shell → Buying involves catching valuable shells in a net." := by decide

/- ### Generic helpers about startsWith and stripping -/

theorem startsWith_iff : ∀ {p s : PyStr}, startsWith p s = true ↔ ∃ t, s = p ++ t := by
  intro p
  induction p with
  | nil => intro s; simp [startsWith]
  | cons a ps ih =>
    intro s
    cases s with
    | nil =>
      simp [startsWith]
    | cons c cs =>
      simp only [startsWith, Bool.and_eq_true, beq_iff_eq, ih]
      constructor
      · rintro ⟨rfl, t, rfl⟩
        exact ⟨t, rfl⟩
      · rintro ⟨t, ht⟩
        injection ht with h1 h2
        exact ⟨h1.symm, t, h2⟩

theorem dropWhile_head_not {p : Char → Bool} : ∀ {s t : PyStr} {c : Char},
    s.dropWhile p = c :: t → p c = false := by
  intro s
  induction s with
  | nil => intro t c h; simp [List.dropWhile] at h
  | cons a as ih =>
    intro t c h
    rw [List.dropWhile_cons] at h
    by_cases hp : p a = true
    · rw [if_pos hp] at h; exact ih h
    · rw [if_neg hp] at h
      injection h with h1 _
      subst h1
      simpa using hp

theorem getLast?_reverse' (l : PyStr) : l.reverse.getLast? = l.head? := by
  rw [← List.head?_reverse, List.reverse_reverse]

theorem rstrip_append_space {s t : PyStr} (h : ∀ c ∈ t, isPySpace c = true) :
    rstrip (s ++ t) = rstrip s := by
  unfold rstrip
  rw [List.reverse_append, List.dropWhile_append]
  have hnil : t.reverse.dropWhile isPySpace = [] :=
    List.dropWhile_eq_nil_iff.mpr (fun c hc => h c (List.mem_reverse.mp hc))
  rw [hnil]
  rfl

theorem rstrip_append_keep {s t : PyStr} {c : Char} (hm : c ∈ t) (hc : isPySpace c = false) :
    rstrip (s ++ t) = s ++ rstrip t := by
  unfold rstrip
  rw [List.reverse_append, List.dropWhile_append]
  have hne : t.reverse.dropWhile isPySpace ≠ [] := by
    intro h
    rw [List.dropWhile_eq_nil_iff] at h
    have := h c (List.mem_reverse.mpr hm)
    rw [hc] at this
    exact Bool.false_ne_true this
  rw [if_neg (by simpa [List.isEmpty_iff] using hne)]
  rw [List.reverse_append, List.reverse_reverse]

theorem rstrip_eq_self : ∀ {s : PyStr}, (∀ c, s.getLast? = some c → isPySpace c = false) →
    rstrip s = s := by
  intro s h
  unfold rstrip
  cases hs : s.reverse with
  | nil =>
    have : s = [] := by simpa [List.reverse_eq_nil_iff] using hs
    subst this; rfl
  | cons c rest =>
    have hlast : s.getLast? = some c := by
      rw [← List.head?_reverse, hs]; rfl
    rw [List.dropWhile_cons, if_neg (by simp [h c hlast])]
    rw [← hs, List.reverse_reverse]

theorem lstrip_eq_self {s : PyStr} (h : ∀ c, s.head? = some c → isPySpace c = false) :
    lstrip s = s := by
  unfold lstrip
  cases s with
  | nil => rfl
  | cons c cs => rw [List.dropWhile_cons, if_neg (by simp [h c rfl])]

theorem rstrip_decomp (s : PyStr) : ∃ t, s = rstrip s ++ t ∧ ∀ c ∈ t, isPySpace c = true := by
  refine ⟨(s.reverse.takeWhile isPySpace).reverse, ?_, ?_⟩
  · unfold rstrip
    rw [← List.reverse_append, List.takeWhile_append_dropWhile, List.reverse_reverse]
  · intro c hc
    exact List.mem_takeWhile_imp (List.mem_reverse.mp hc)

theorem lstrip_decomp (s : PyStr) : ∃ t, s = t ++ lstrip s ∧ ∀ c ∈ t, isPySpace c = true :=
  ⟨s.takeWhile isPySpace, (List.takeWhile_append_dropWhile _ _).symm,
    fun _ hc => List.mem_takeWhile_imp hc⟩

theorem rstrip_getLast {s : PyStr} {c : Char} (h : (rstrip s).getLast? = some c) :
    isPySpace c = false := by
  unfold rstrip at h
  rw [getLast?_reverse'] at h
  cases hd : s.reverse.dropWhile isPySpace with
  | nil => rw [hd] at h; simp at h
  | cons a t =>
    rw [hd] at h
    have : a = c := by simpa using h
    subst this
    exact dropWhile_head_not hd

theorem pyStrip_head_not {s : PyStr} {c : Char} {t : PyStr} (h : pyStrip s = c :: t) :
    isPySpace c = false := by
  unfold pyStrip at h
  obtain ⟨j, hj, _⟩ := rstrip_decomp (lstrip s)
  rw [h] at hj
  exact dropWhile_head_not (p := isPySpace) (s := s) (by simpa using hj)

theorem pyStrip_last_not {s : PyStr} {c : Char} (h : (pyStrip s).getLast? = some c) :
    isPySpace c = false :=
  rstrip_getLast h

theorem pyStrip_eq_self {s : PyStr}
    (h1 : ∀ c, s.head? = some c → isPySpace c = false)
    (h2 : ∀ c, s.getLast? = some c → isPySpace c = false) : pyStrip s = s := by
  unfold pyStrip
  rw [lstrip_eq_self h1, rstrip_eq_self h2]

theorem pyStrip_idem (s : PyStr) : pyStrip (pyStrip s) = pyStrip s := by
  apply pyStrip_eq_self
  · intro c hc
    cases hps : pyStrip s with
    | nil => rw [hps] at hc; simp at hc
    | cons a t =>
      rw [hps] at hc
      have : a = c := by simpa using hc
      subst this
      exact pyStrip_head_not hps
  · intro c hc
    exact pyStrip_last_not hc

theorem rstrip_ne_nil {s : PyStr} {c : Char} (hm : c ∈ s) (hc : isPySpace c = false) :
    rstrip s ≠ [] := by
  unfold rstrip
  simp only [ne_eq, List.reverse_eq_nil_iff]
  intro h
  rw [List.dropWhile_eq_nil_iff] at h
  have := h c (List.mem_reverse.mpr hm)
  rw [hc] at this
  exact Bool.false_ne_true this

theorem mem_lstrip {s : PyStr} {a : Char} (h : a ∈ lstrip s) : a ∈ s :=
  (List.dropWhile_sublist _).subset h

theorem mem_rstrip {s : PyStr} {a : Char} (h : a ∈ rstrip s) : a ∈ s := by
  unfold rstrip at h
  rw [List.mem_reverse] at h
  exact List.mem_reverse.mp ((List.dropWhile_sublist _).subset h)

theorem mem_pyStrip {s : PyStr} {a : Char} (h : a ∈ pyStrip s) : a ∈ s :=
  mem_lstrip (mem_rstrip h)

theorem mem_rstripTrunc {s : PyStr} {a : Char} (h : a ∈ rstripTrunc s) : a ∈ s := by
  unfold rstripTrunc at h
  rw [List.mem_reverse] at h
  exact List.mem_reverse.mp ((List.dropWhile_sublist _).subset h)

theorem rstripTrunc_length_le (s : PyStr) : (rstripTrunc s).length ≤ s.length := by
  unfold rstripTrunc
  rw [List.length_reverse]
  calc (s.reverse.dropWhile isTruncStrip).length ≤ s.reverse.length :=
        (List.dropWhile_sublist _).length_le
    _ = s.length := List.length_reverse s

/- ### collapseWs -/

theorem collapseWs_head : ∀ {s : PyStr} {c : Char},
    ∃ t, collapseWs (c :: s) = (if isPySpace c = true then ' ' else c) :: t := by
  intro cs
  induction cs with
  | nil =>
    intro c
    by_cases h : isPySpace c = true
    · exact ⟨[], by simp [collapseWs, h]⟩
    · exact ⟨[], by simp [collapseWs, h]⟩
  | cons d ds ih =>
    intro c
    by_cases hc : isPySpace c = true
    · by_cases hd : isPySpace d = true
      · obtain ⟨t, ht⟩ := ih (c := d)
        rw [if_pos hd] at ht
        exact ⟨t, by simp [collapseWs, hc, hd, ht]⟩
      · exact ⟨collapseWs (d :: ds), by simp [collapseWs, hc, hd]⟩
    · exact ⟨collapseWs (d :: ds), by simp [collapseWs, hc]⟩

theorem collapseWs_ne_nil {c : Char} {cs : PyStr} : collapseWs (c :: cs) ≠ [] := by
  obtain ⟨t, ht⟩ := collapseWs_head (s := cs) (c := c)
  rw [ht]
  exact List.cons_ne_nil _ _

theorem mem_collapseWs : ∀ {s : PyStr} {a : Char}, a ∈ collapseWs s → a ∈ s ∨ a = ' ' := by
  intro s
  induction s with
  | nil => intro a ha; simp [collapseWs] at ha
  | cons c cs ih =>
    intro a ha
    cases cs with
    | nil =>
      simp only [collapseWs] at ha
      split at ha
      · simp at ha; right; exact ha
      · simp at ha; left; simp [ha]
    | cons d ds =>
      simp only [collapseWs] at ha
      split at ha
      · split at ha
        · rcases ih ha with h | h
          · exact Or.inl (List.mem_cons_of_mem _ h)
          · exact Or.inr h
        · rcases List.mem_cons.mp ha with h | h
          · exact Or.inr h
          · rcases ih h with h2 | h2
            · exact Or.inl (List.mem_cons_of_mem _ h2)
            · exact Or.inr h2
      · rcases List.mem_cons.mp ha with h | h
        · exact Or.inl (List.mem_cons.mpr (Or.inl h))
        · rcases ih h with h2 | h2
          · exact Or.inl (List.mem_cons_of_mem _ h2)
          · exact Or.inr h2

theorem wsNormal_collapseWs : ∀ (s : PyStr), wsNormal (collapseWs s) = true := by
  intro s
  induction s with
  | nil => rfl
  | cons c cs ih =>
    cases cs with
    | nil =>
      simp only [collapseWs]
      split
      · simp [wsNormal, isPySpace]
      · rename_i hns
        have : isPySpace c = false := by simpa using hns
        simp [wsNormal, this]
    | cons d ds =>
      by_cases hc : isPySpace c = true
      · by_cases hd : isPySpace d = true
        · simpa [collapseWs, hc, hd] using ih
        · obtain ⟨t, ht⟩ := collapseWs_head (s := ds) (c := d)
          rw [if_neg (by simp [hd])] at ht
          have hd' : (d == ' ') = false := by
            have : d ≠ ' ' := by
              intro h; rw [h] at hd; simp [isPySpace] at hd
            simpa using this
          rw [ht] at ih
          simp only [collapseWs, hc, hd, if_pos, if_neg, ite_true, ite_false]
          rw [ht]
          simp [wsNormal, isPySpace, hd', ih]
      · obtain ⟨t, ht⟩ := collapseWs_head (s := ds) (c := d)
        have hc' : (c == ' ') = false := by
          have : c ≠ ' ' := by
            intro h; rw [h] at hc; simp [isPySpace] at hc
          simpa using this
        rw [ht] at ih
        simp only [collapseWs, hc, ite_false, if_neg]
        rw [ht]
        by_cases hsp : isPySpace d = true
        · rw [if_pos hsp] at ht ⊢
          simp [wsNormal, hc, hc', ih]
        · rw [if_neg hsp] at ht ⊢
          simp [wsNormal, hc, hc', ih]

theorem wsNormal_head {c : Char} {s : PyStr} (h : wsNormal (c :: s) = true)
    (hc : isPySpace c = true) : c = ' ' := by
  cases s with
  | nil =>
    simp only [wsNormal, Bool.or_eq_true, Bool.not_eq_true'] at h
    rcases h with h | h
    · rw [hc] at h; exact absurd h (by simp)
    · simpa using h
  | cons d ds =>
    simp only [wsNormal, Bool.and_eq_true, Bool.or_eq_true, Bool.not_eq_true'] at h
    rcases h.1.1 with h1 | h1
    · rw [hc] at h1; exact absurd h1 (by simp)
    · simpa using h1

theorem wsNormal_tail {c : Char} {s : PyStr} (h : wsNormal (c :: s) = true) :
    wsNormal s = true := by
  cases s with
  | nil => rfl
  | cons d ds =>
    simp only [wsNormal, Bool.and_eq_true] at h
    exact h.2

theorem wsNormal_eq_self : ∀ {s : PyStr}, wsNormal s = true → collapseWs s = s := by
  intro s
  induction s with
  | nil => intro _; rfl
  | cons c cs ih =>
    intro h
    cases cs with
    | nil =>
      by_cases hc : isPySpace c = true
      · have := wsNormal_head h hc
        subst this
        simp [collapseWs, isPySpace]
      · simp [collapseWs, hc]
    | cons d ds =>
      have htail := wsNormal_tail h
      by_cases hc : isPySpace c = true
      · have hceq : c = ' ' := wsNormal_head h hc
        by_cases hd : isPySpace d = true
        · have hdeq : d = ' ' := wsNormal_head htail hd
          exfalso
          simp only [wsNormal, Bool.and_eq_true, Bool.not_eq_true'] at h
          have := h.1.2
          rw [hceq, hdeq] at this
          simp at this
        · have hd' : isPySpace d = false := by simpa using hd
          simp only [collapseWs, hc, hd', ite_true]
          rw [if_neg (by simp), ih htail, hceq]
      · have hc' : isPySpace c = false := by simpa using hc
        simp only [collapseWs, hc']
        rw [if_neg (by simp), ih htail]

/- ### firstSentence -/

theorem firstSentence_head {c : Char} {s : PyStr} :
    ∃ t, firstSentence (c :: s) = c :: t := by
  cases s with
  | nil => exact ⟨[], rfl⟩
  | cons d ds =>
    simp only [firstSentence]
    split
    · exact ⟨[], rfl⟩
    · exact ⟨firstSentence (d :: ds), rfl⟩

theorem firstSentence_decomp : ∀ (s : PyStr), ∃ t, s = firstSentence s ++ t := by
  intro s
  induction s with
  | nil => exact ⟨[], rfl⟩
  | cons c cs ih =>
    cases cs with
    | nil => exact ⟨[], rfl⟩
    | cons d ds =>
      simp only [firstSentence]
      split
      · exact ⟨d :: ds, rfl⟩
      · obtain ⟨t, ht⟩ := ih
        exact ⟨t, by rw [List.cons_append, ← ht]⟩

theorem mem_firstSentence {s : PyStr} {a : Char} (h : a ∈ firstSentence s) : a ∈ s := by
  obtain ⟨t, ht⟩ := firstSentence_decomp s
  rw [ht]
  exact List.mem_append.mpr (Or.inl h)

theorem noSentenceBreak_firstSentence : ∀ (s : PyStr), noSentenceBreak (firstSentence s) = true := by
  intro s
  induction s with
  | nil => rfl
  | cons c cs ih =>
    cases cs with
    | nil => rfl
    | cons d ds =>
      simp only [firstSentence]
      split
      · rfl
      · rename_i hbreak
        obtain ⟨t, ht⟩ := firstSentence_head (c := d) (s := ds)
        rw [ht]
        rw [ht] at ih
        rw [Bool.not_eq_true] at hbreak
        simp only [noSentenceBreak, Bool.and_eq_true, Bool.not_eq_true']
        exact ⟨hbreak, ih⟩

theorem firstSentence_eq_self : ∀ {s : PyStr}, noSentenceBreak s = true → firstSentence s = s := by
  intro s
  induction s with
  | nil => intro _; rfl
  | cons c cs ih =>
    intro h
    cases cs with
    | nil => rfl
    | cons d ds =>
      simp only [noSentenceBreak, Bool.and_eq_true, Bool.not_eq_true'] at h
      simp only [firstSentence]
      rw [if_neg (by simp [h.1])]
      rw [ih h.2]

theorem firstSentence_append_nopunct : ∀ {p t : PyStr},
    (∀ c ∈ p, isSentencePunct c = false) → firstSentence (p ++ t) = p ++ firstSentence t := by
  intro p
  induction p with
  | nil => intro t _; rfl
  | cons c p' ih =>
    intro t h
    have hc : isSentencePunct c = false := h c (List.mem_cons_self _ _)
    cases hp' : p' with
    | nil =>
      cases t with
      | nil => rfl
      | cons d ts =>
        simp only [List.nil_append, List.cons_append]
        simp only [firstSentence]
        rw [if_neg (by simp [hc])]
    | cons e p'' =>
      subst hp'
      have hrec := ih (t := t) (fun x hx => h x (List.mem_cons_of_mem _ hx))
      simp only [List.cons_append] at hrec ⊢
      simp only [firstSentence]
      rw [if_neg (by simp [hc]), hrec]

/- ### Stability of the pairwise shape properties -/

theorem noSentenceBreak_tail {c : Char} {s : PyStr} (h : noSentenceBreak (c :: s) = true) :
    noSentenceBreak s = true := by
  cases s with
  | nil => rfl
  | cons d ds =>
    simp only [noSentenceBreak, Bool.and_eq_true] at h
    exact h.2

theorem noSentenceBreak_append_left : ∀ {p t : PyStr}, noSentenceBreak (p ++ t) = true →
    noSentenceBreak p = true := by
  intro p
  induction p with
  | nil => intro t _; rfl
  | cons c p' ih =>
    intro t h
    cases p' with
    | nil => rfl
    | cons d p'' =>
      simp only [List.cons_append] at h
      simp only [noSentenceBreak, Bool.and_eq_true] at h ⊢
      exact ⟨h.1, ih (t := t) (by simpa using h.2)⟩

theorem noSentenceBreak_append_right : ∀ {p t : PyStr}, noSentenceBreak (p ++ t) = true →
    noSentenceBreak t = true := by
  intro p
  induction p with
  | nil => intro t h; exact h
  | cons c p' ih =>
    intro t h
    exact ih (noSentenceBreak_tail (by simpa using h))

theorem noSentenceBreak_append_single : ∀ {s : PyStr} {c : Char}, isPySpace c = false →
    noSentenceBreak s = true → noSentenceBreak (s ++ [c]) = true := by
  intro s
  induction s with
  | nil => intro c _ _; rfl
  | cons a s' ih =>
    intro c hc h
    cases s' with
    | nil =>
      simp only [List.cons_append, List.nil_append, noSentenceBreak, Bool.not_eq_true']
      simp [hc]
    | cons b s'' =>
      simp only [List.cons_append] at *
      simp only [noSentenceBreak, Bool.and_eq_true] at h ⊢
      exact ⟨h.1, ih hc h.2⟩

theorem wsNormal_append_left : ∀ {p t : PyStr}, wsNormal (p ++ t) = true →
    wsNormal p = true := by
  intro p
  induction p with
  | nil => intro t _; rfl
  | cons c p' ih =>
    intro t h
    cases p' with
    | nil =>
      cases t with
      | nil => exact h
      | cons d ts =>
        simp only [List.cons_append, List.nil_append, wsNormal, Bool.and_eq_true] at h
        simp only [wsNormal]
        exact h.1.1
    | cons d p'' =>
      simp only [List.cons_append] at h
      simp only [wsNormal, Bool.and_eq_true] at h ⊢
      exact ⟨h.1, ih (by simpa using h.2)⟩

theorem wsNormal_append_right : ∀ {p t : PyStr}, wsNormal (p ++ t) = true →
    wsNormal t = true := by
  intro p
  induction p with
  | nil => intro t h; exact h
  | cons c p' ih =>
    intro t h
    exact ih (wsNormal_tail (by simpa using h))

theorem wsNormal_append_single : ∀ {s : PyStr} {c : Char}, isPySpace c = false →
    wsNormal s = true → wsNormal (s ++ [c]) = true := by
  intro s
  induction s with
  | nil =>
    intro c hc _
    simp [wsNormal, hc]
  | cons a s' ih =>
    intro c hc h
    have hcne : (c == ' ') = false := by
      have : c ≠ ' ' := by
        intro hceq; rw [hceq] at hc; simp [isPySpace] at hc
      simpa using this
    cases s' with
    | nil =>
      simp only [List.cons_append, List.nil_append]
      simp only [wsNormal, Bool.and_eq_true] at h ⊢
      exact ⟨⟨h, by simp [hcne]⟩, by simp [hc]⟩
    | cons b s'' =>
      simp only [List.cons_append] at *
      simp only [wsNormal, Bool.and_eq_true] at h ⊢
      exact ⟨h.1, ih hc h.2⟩

theorem noTagPair_of_noGt : ∀ {s : PyStr}, (∀ x ∈ s, x ≠ '>') → noTagPair s = true := by
  intro s
  induction s with
  | nil => intro _; rfl
  | cons c cs ih =>
    intro h
    by_cases hc : c = '<'
    · simp only [noTagPair, if_pos hc, Bool.not_eq_true']
      rw [List.any_eq_false]
      intro x hx
      simp [h x (List.mem_cons_of_mem _ hx)]
    · simp only [noTagPair, if_neg hc]
      exact ih (fun x hx => h x (List.mem_cons_of_mem _ hx))

theorem noTagPair_tail {c : Char} {cs : PyStr} (h : noTagPair (c :: cs) = true) :
    noTagPair cs = true := by
  by_cases hc : c = '<'
  · simp only [noTagPair, if_pos hc, Bool.not_eq_true'] at h
    rw [List.any_eq_false] at h
    apply noTagPair_of_noGt
    intro x hx hxeq
    have := h x hx
    rw [hxeq] at this
    simp at this
  · simpa only [noTagPair, if_neg hc] using h

theorem noTagPair_append_left : ∀ {p t : PyStr}, noTagPair (p ++ t) = true →
    noTagPair p = true := by
  intro p
  induction p with
  | nil => intro t _; rfl
  | cons c p' ih =>
    intro t h
    simp only [List.cons_append] at h
    by_cases hc : c = '<'
    · simp only [noTagPair, if_pos hc, Bool.not_eq_true', List.any_eq_false] at h ⊢
      intro x hx
      exact h x (List.mem_append.mpr (Or.inl hx))
    · simp only [noTagPair, if_neg hc] at h ⊢
      exact ih h

theorem noTagPair_append_right : ∀ {p t : PyStr}, noTagPair (p ++ t) = true →
    noTagPair t = true := by
  intro p
  induction p with
  | nil => intro t h; exact h
  | cons c p' ih =>
    intro t h
    exact ih (noTagPair_tail (by simpa using h))

theorem noTagPair_append_single : ∀ {s : PyStr} {c : Char}, c ≠ '>' →
    noTagPair s = true → noTagPair (s ++ [c]) = true := by
  intro s
  induction s with
  | nil =>
    intro c hc _
    by_cases h : c = '<'
    · simp [noTagPair, h]
    · simp [noTagPair, h]
  | cons a s' ih =>
    intro c hc h
    simp only [List.cons_append]
    by_cases ha : a = '<'
    · simp only [noTagPair, if_pos ha, Bool.not_eq_true', List.any_eq_false] at h ⊢
      intro x hx
      rcases List.mem_append.mp hx with h1 | h1
      · exact h x h1
      · have : x = c := by simpa using h1
        subst this
        simpa using hc
    · simp only [noTagPair, if_neg ha] at h ⊢
      exact ih hc h

/- ### removeTags -/

theorem rtAux_some_noGt : ∀ {s : PyStr} (pend : PyStr), (∀ x ∈ s, x ≠ '>') →
    rtAux (some pend) s = pend.reverse ++ s := by
  intro s
  induction s with
  | nil => intro pend _; simp [rtAux]
  | cons c cs ih =>
    intro pend h
    have hc : c ≠ '>' := h c (List.mem_cons_self _ _)
    simp only [rtAux, if_neg hc]
    rw [ih (c :: pend) (fun x hx => h x (List.mem_cons_of_mem _ hx))]
    simp

theorem rtAux_none_eq_self : ∀ {s : PyStr}, noTagPair s = true → rtAux none s = s := by
  intro s
  induction s with
  | nil => intro _; rfl
  | cons c cs ih =>
    intro h
    by_cases hc : c = '<'
    · subst hc
      have hstep : rtAux none ('<' :: cs) = rtAux (some ['<']) cs := by
        simp [rtAux]
      rw [hstep]
      have hgt : ∀ x ∈ cs, x ≠ '>' := by
        have h' : cs.any (fun x => x == '>') = false := by
          simpa [noTagPair] using h
        rw [List.any_eq_false] at h'
        intro x hx hxeq
        have := h' x hx
        rw [hxeq] at this
        simp at this
      rw [rtAux_some_noGt ['<'] hgt]
      rfl
    · simp only [rtAux, if_neg hc]
      rw [ih (noTagPair_tail h)]

theorem removeTags_eq_self {s : PyStr} (h : noTagPair s = true) : removeTags s = s :=
  rtAux_none_eq_self h

theorem exists_first_gt : ∀ {s : PyStr}, ('>' ∈ s) → ∃ a b, s = a ++ '>' :: b ∧ ∀ x ∈ a, x ≠ '>' := by
  intro s
  induction s with
  | nil => intro h; simp at h
  | cons c cs ih =>
    intro h
    by_cases hc : c = '>'
    · exact ⟨[], cs, by rw [hc]; rfl, by simp⟩
    · have hm : '>' ∈ cs := by
        rcases List.mem_cons.mp h with h1 | h1
        · exact absurd h1.symm hc
        · exact h1
      obtain ⟨a, b, hab, ha⟩ := ih hm
      refine ⟨c :: a, b, by rw [hab]; rfl, ?_⟩
      intro x hx
      rcases List.mem_cons.mp hx with h2 | h2
      · subst h2; exact hc
      · exact ha x h2

theorem rtAux_some_gt : ∀ {a : PyStr} (pend : PyStr) {b : PyStr}, (∀ x ∈ a, x ≠ '>') →
    rtAux (some pend) (a ++ '>' :: b) = rtAux none b := by
  intro a
  induction a with
  | nil => intro pend b _; simp [rtAux]
  | cons c a' ih =>
    intro pend b ha
    have hc : c ≠ '>' := ha c (List.mem_cons_self _ _)
    simp only [List.cons_append, rtAux, if_neg hc]
    exact ih (c :: pend) (fun x hx => ha x (List.mem_cons_of_mem _ hx))

theorem noTagPair_rtAux_none : ∀ (n : Nat) (s : PyStr), s.length ≤ n →
    noTagPair (rtAux none s) = true := by
  intro n
  induction n with
  | zero =>
    intro s hs
    have : s = [] := List.length_eq_zero.mp (Nat.le_zero.mp hs)
    subst this; rfl
  | succ n ih =>
    intro s hs
    cases s with
    | nil => rfl
    | cons c cs =>
      have hcs : cs.length ≤ n := by
        simpa using Nat.succ_le_succ_iff.mp (by simpa using hs)
      by_cases hc : c = '<'
      · subst hc
        have hstep : rtAux none ('<' :: cs) = rtAux (some ['<']) cs := by
          simp [rtAux]
        rw [hstep]
        by_cases hgt : '>' ∈ cs
        · obtain ⟨a, b, hab, ha⟩ := exists_first_gt hgt
          rw [hab, rtAux_some_gt _ ha]
          apply ih
          have h2 : b.length < cs.length := by
            rw [hab]
            simp [List.length_append]
            omega
          omega
        · rw [rtAux_some_noGt ['<'] (fun x hx h' => hgt (h' ▸ hx))]
          have hrw : ((['<'] : PyStr).reverse ++ cs) = '<' :: cs := by simp
          rw [hrw]
          apply noTagPair_of_noGt
          intro x hx
          rcases List.mem_cons.mp hx with h1 | h1
          · subst h1; decide
          · exact fun h' => hgt (h' ▸ h1)
      · have hstep : rtAux none (c :: cs) = c :: rtAux none cs := by
          simp [rtAux, hc]
        rw [hstep]
        have h2 : noTagPair (c :: rtAux none cs) = noTagPair (rtAux none cs) := by
          simp [noTagPair, hc]
        rw [h2]
        exact ih cs hcs

theorem noTagPair_removeTags (s : PyStr) : noTagPair (removeTags s) = true :=
  noTagPair_rtAux_none s.length s le_rfl

theorem mem_rtAux : ∀ {s : PyStr} {st : Option PyStr} {x : Char}, x ∈ rtAux st s →
    (∃ pend, st = some pend ∧ x ∈ pend) ∨ x ∈ s := by
  intro s
  induction s with
  | nil =>
    intro st x hx
    cases st with
    | none => simp [rtAux] at hx
    | some pend =>
      left
      exact ⟨pend, rfl, by simpa [rtAux] using hx⟩
  | cons c cs ih =>
    intro st x hx
    cases st with
    | none =>
      by_cases hc : c = '<'
      · subst hc
        have hstep : rtAux none ('<' :: cs) = rtAux (some ['<']) cs := by simp [rtAux]
        rw [hstep] at hx
        rcases ih hx with ⟨pend, hp, hm⟩ | hm
        · injection hp with hp'
          subst hp'
          right
          have : x = '<' := by simpa using hm
          subst this
          exact List.mem_cons_self _ _
        · right; exact List.mem_cons_of_mem _ hm
      · have hstep : rtAux none (c :: cs) = c :: rtAux none cs := by simp [rtAux, hc]
        rw [hstep] at hx
        rcases List.mem_cons.mp hx with h | h
        · right; exact List.mem_cons.mpr (Or.inl h)
        · rcases ih h with ⟨pend, hp, _⟩ | hm
          · exact absurd hp (by simp)
          · right; exact List.mem_cons_of_mem _ hm
    | some pend =>
      by_cases hc : c = '>'
      · subst hc
        have hstep : rtAux (some pend) ('>' :: cs) = rtAux none cs := by simp [rtAux]
        rw [hstep] at hx
        rcases ih hx with ⟨p', hp, _⟩ | hm
        · exact absurd hp (by simp)
        · right; exact List.mem_cons_of_mem _ hm
      · have hstep : rtAux (some pend) (c :: cs) = rtAux (some (c :: pend)) cs := by
          simp [rtAux, hc]
        rw [hstep] at hx
        rcases ih hx with ⟨p', hp, hm⟩ | hm
        · injection hp with hp'
          subst hp'
          rcases List.mem_cons.mp hm with h | h
          · right; rw [h]; exact List.mem_cons_self _ _
          · left; exact ⟨pend, rfl, h⟩
        · right; exact List.mem_cons_of_mem _ hm

theorem mem_removeTags {s : PyStr} {x : Char} (h : x ∈ removeTags s) : x ∈ s := by
  rcases mem_rtAux h with ⟨pend, hp, _⟩ | hm
  · exact absurd hp (by simp)
  · exact hm

theorem removeTags_append_noLt : ∀ {p t : PyStr}, (∀ c ∈ p, c ≠ '<') →
    removeTags (p ++ t) = p ++ removeTags t := by
  unfold removeTags
  intro p
  induction p with
  | nil => intro t _; rfl
  | cons c p' ih =>
    intro t h
    have hc : c ≠ '<' := h c (List.mem_cons_self _ _)
    have hstep : rtAux none (c :: (p' ++ t)) = c :: rtAux none (p' ++ t) := by
      simp [rtAux, hc]
    simp only [List.cons_append]
    rw [hstep, ih (fun x hx => h x (List.mem_cons_of_mem _ hx))]

/- ### stripReps -/

theorem dropWhile_suffixE (p : Char → Bool) (s : PyStr) : ∃ t, s = t ++ s.dropWhile p :=
  ⟨s.takeWhile p, (List.takeWhile_append_dropWhile p s).symm⟩

theorem afterColon_suffixE (r : PyStr) : ∃ t, r = t ++ afterColon r := by
  unfold afterColon
  split
  · rename_i t
    obtain ⟨u, hu⟩ := dropWhile_suffixE isPySpace t
    refine ⟨':' :: u, ?_⟩
    rw [List.cons_append]
    exact congrArg (':' :: ·) hu
  · exact ⟨[], rfl⟩

theorem afterColon_length_le (r : PyStr) : (afterColon r).length ≤ r.length := by
  obtain ⟨t, ht⟩ := afterColon_suffixE r
  have hlen := congrArg List.length ht
  simp only [List.length_append] at hlen
  omega

theorem ciPrefixB_length {pat s : PyStr} (h : ciPrefixB pat s = true) :
    pat.length ≤ s.length := by
  unfold ciPrefixB at h
  have heq : pyLower (s.take pat.length) = pyLower pat := by simpa using h
  have hlen := congrArg List.length heq
  simp only [pyLower, List.length_map, List.length_take] at hlen
  rcases Nat.le_total pat.length s.length with h1 | h1
  · exact h1
  · rw [Nat.min_eq_right h1] at hlen
    omega

theorem stripRep1_decomp : ∀ {pat s s2 : PyStr}, stripRep1 pat s = some s2 →
    (∃ t, s = t ++ s2) ∧ s2.length < s.length := by
  intro pat s s2 h
  unfold stripRep1 at h
  by_cases hp : pat.isEmpty
  · rw [if_pos hp] at h; exact absurd h (by simp)
  · rw [if_neg hp] at h
    by_cases hci : ciPrefixB pat s = true
    · rw [if_pos hci] at h
      by_cases hb : boundaryAfter (pat.getLastD ' ') (s.drop pat.length).head? = true
      · rw [if_pos hb] at h
        have hs2 : s2 = afterColon ((s.drop pat.length).dropWhile isPySpace) := by
          injection h with h'
          exact h'.symm
        have hlen : pat.length ≤ s.length := ciPrefixB_length hci
        have hplen : 1 ≤ pat.length := by
          cases pat with
          | nil => simp at hp
          | cons _ _ => simp
        constructor
        · obtain ⟨t1, ht1⟩ := dropWhile_suffixE isPySpace (s.drop pat.length)
          obtain ⟨t2, ht2⟩ := afterColon_suffixE ((s.drop pat.length).dropWhile isPySpace)
          refine ⟨s.take pat.length ++ t1 ++ t2, ?_⟩
          rw [hs2]
          have e1 : s = s.take pat.length ++ s.drop pat.length :=
            (List.take_append_drop _ _).symm
          rw [ht2] at ht1
          rw [ht1] at e1
          exact e1.trans (by simp [List.append_assoc])
        · have h1 : (afterColon ((s.drop pat.length).dropWhile isPySpace)).length ≤
              ((s.drop pat.length).dropWhile isPySpace).length := afterColon_length_le _
          have h2 : ((s.drop pat.length).dropWhile isPySpace).length ≤ (s.drop pat.length).length :=
            (List.dropWhile_sublist _).length_le
          have h3 : (s.drop pat.length).length = s.length - pat.length := List.length_drop _ _
          rw [hs2]
          omega
      · rw [if_neg hb] at h; exact absurd h (by simp)
    · rw [if_neg hci] at h; exact absurd h (by simp)

theorem stripRepsFuel_decomp : ∀ (n : Nat) (pat s : PyStr), ∃ t, s = t ++ stripRepsFuel n pat s := by
  intro n
  induction n with
  | zero => intro pat s; exact ⟨[], rfl⟩
  | succ n ih =>
    intro pat s
    simp only [stripRepsFuel]
    cases h : stripRep1 pat s with
    | none => exact ⟨[], rfl⟩
    | some s2 =>
      obtain ⟨t1, ht1⟩ := (stripRep1_decomp h).1
      obtain ⟨t2, ht2⟩ := ih pat s2
      refine ⟨t1 ++ t2, ?_⟩
      rw [List.append_assoc, ← ht2, ← ht1]

theorem stripReps_decomp (pat s : PyStr) : ∃ t, s = t ++ stripReps pat s :=
  stripRepsFuel_decomp (s.length + 1) pat s

theorem mem_stripReps {pat s : PyStr} {a : Char} (h : a ∈ stripReps pat s) : a ∈ s := by
  obtain ⟨t, ht⟩ := stripReps_decomp pat s
  rw [ht]
  exact List.mem_append.mpr (Or.inr h)

theorem stripRep1_stripRepsFuel : ∀ {n : Nat} {pat s : PyStr}, s.length < n →
    stripRep1 pat (stripRepsFuel n pat s) = none := by
  intro n
  induction n with
  | zero => intro pat s h; omega
  | succ n ih =>
    intro pat s h
    simp only [stripRepsFuel]
    cases heq : stripRep1 pat s with
    | none => exact heq
    | some s2 =>
      apply ih
      have := (stripRep1_decomp heq).2
      omega

theorem stripRep1_stripReps (pat s : PyStr) : stripRep1 pat (stripReps pat s) = none :=
  stripRep1_stripRepsFuel (Nat.lt_succ_self _)

theorem stripReps_eq_self {pat s : PyStr} (h : stripRep1 pat s = none) :
    stripReps pat s = s := by
  unfold stripReps
  simp [stripRepsFuel, h]

theorem ciPrefixB_of_append (pat t : PyStr) : ciPrefixB pat (pat ++ t) = true := by
  unfold ciPrefixB
  rw [List.take_left]
  simp

theorem stripRep1_at_colon {pat t : PyStr} (hp : pat ≠ [])
    (hw : isWordChar (pat.getLastD ' ') = true) :
    stripRep1 pat (pat ++ ':' :: t) ≠ none := by
  unfold stripRep1
  rw [if_neg (by simpa using hp), if_pos (ciPrefixB_of_append pat (':' :: t))]
  rw [List.drop_left]
  simp only [List.head?_cons]
  have hb : boundaryAfter (pat.getLastD ' ') (some ':') = true := by
    simp only [boundaryAfter, hw]
    decide
  rw [if_pos hb]
  simp

/-- Leading-repetition exhaustion: the output of the lhs stripper never starts
    with the (word-ending) pattern immediately followed by a colon. -/
theorem stripReps_no_patColon (pat s : PyStr) (hp : pat ≠ [])
    (hw : isWordChar (pat.getLastD ' ') = true) :
    startsWith (pat ++ [':']) (stripReps pat s) = false := by
  cases hsw : startsWith (pat ++ [':']) (stripReps pat s) with
  | false => rfl
  | true =>
    exfalso
    obtain ⟨t, ht⟩ := startsWith_iff.mp hsw
    have hnone := stripRep1_stripReps pat s
    rw [ht] at hnone
    have : (pat ++ [':']) ++ t = pat ++ ':' :: t := by
      rw [List.append_assoc]; rfl
    rw [this] at hnone
    exact stripRep1_at_colon hp hw hnone

/- ### Preservation through collapseWs and stripping -/

theorem noSentenceBreak_collapseWs : ∀ {s : PyStr}, noSentenceBreak s = true →
    noSentenceBreak (collapseWs s) = true := by
  intro s
  induction s with
  | nil => intro _; rfl
  | cons c cs ih =>
    intro h
    cases cs with
    | nil =>
      simp only [collapseWs]
      split
      · rfl
      · rfl
    | cons d ds =>
      have htail := noSentenceBreak_tail h
      have hih := ih htail
      by_cases hc : isPySpace c = true
      · by_cases hd : isPySpace d = true
        · simpa [collapseWs, hc, hd] using hih
        · obtain ⟨t, ht⟩ := collapseWs_head (s := ds) (c := d)
          rw [if_neg (by simp [hd])] at ht
          have hstep : collapseWs (c :: d :: ds) = ' ' :: collapseWs (d :: ds) := by
            simp [collapseWs, hc, hd]
          rw [hstep, ht]
          rw [ht] at hih
          simp only [noSentenceBreak, Bool.and_eq_true]
          refine ⟨?_, hih⟩
          simp [isSentencePunct]
      · obtain ⟨t, ht⟩ := collapseWs_head (s := ds) (c := d)
        have hstep : collapseWs (c :: d :: ds) = c :: collapseWs (d :: ds) := by
          simp [collapseWs, hc]
        rw [hstep, ht]
        rw [ht] at hih
        simp only [noSentenceBreak, Bool.and_eq_true]
        refine ⟨?_, hih⟩
        by_cases hd : isPySpace d = true
        · rw [if_pos hd]
          have hpc : isSentencePunct c = false := by
            simp only [noSentenceBreak, Bool.and_eq_true, Bool.not_eq_true'] at h
            have h1 := h.1
            rw [hd] at h1
            simpa using h1
          simp [hpc]
        · rw [if_neg hd]
          have hd' : isPySpace d = false := by simpa using hd
          simp [hd']

theorem noTagPair_singleton (c : Char) : noTagPair [c] = true := by
  by_cases h : c = '<' <;> simp [noTagPair, h]

theorem noTagPair_collapseWs : ∀ {s : PyStr}, noTagPair s = true →
    noTagPair (collapseWs s) = true := by
  intro s
  induction s with
  | nil => intro _; rfl
  | cons c cs ih =>
    intro h
    cases cs with
    | nil =>
      simp only [collapseWs]
      split
      · rfl
      · exact noTagPair_singleton c
    | cons d ds =>
      have htail := noTagPair_tail h
      have hih := ih htail
      by_cases hc : isPySpace c = true
      · by_cases hd : isPySpace d = true
        · simpa [collapseWs, hc, hd] using hih
        · have hstep : collapseWs (c :: d :: ds) = ' ' :: collapseWs (d :: ds) := by
            simp [collapseWs, hc, hd]
          rw [hstep]
          have : noTagPair (' ' :: collapseWs (d :: ds)) = noTagPair (collapseWs (d :: ds)) := by
            simp [noTagPair]
          rw [this]
          exact hih
      · have hstep : collapseWs (c :: d :: ds) = c :: collapseWs (d :: ds) := by
          simp [collapseWs, hc]
        rw [hstep]
        by_cases hlt : c = '<'
        · subst hlt
          have hgt : (d :: ds).any (fun x => x == '>') = false := by
            simpa [noTagPair] using h
          rw [List.any_eq_false] at hgt
          have : noTagPair ('<' :: collapseWs (d :: ds)) =
              !(collapseWs (d :: ds)).any (fun x => x == '>') := by
            simp [noTagPair]
          rw [this, Bool.not_eq_true', List.any_eq_false]
          intro x hx
          rcases mem_collapseWs hx with hm | hm
          · exact hgt x hm
          · subst hm; decide
        · have : noTagPair (c :: collapseWs (d :: ds)) = noTagPair (collapseWs (d :: ds)) := by
            simp [noTagPair, hlt]
          rw [this]
          exact hih

theorem noSentenceBreak_pyStrip {s : PyStr} (h : noSentenceBreak s = true) :
    noSentenceBreak (pyStrip s) = true := by
  unfold pyStrip
  obtain ⟨t, ht, _⟩ := rstrip_decomp (lstrip s)
  apply noSentenceBreak_append_left (t := t)
  rw [← ht]
  obtain ⟨u, hu, _⟩ := lstrip_decomp s
  apply noSentenceBreak_append_right (p := u)
  rw [← hu]
  exact h

theorem wsNormal_pyStrip {s : PyStr} (h : wsNormal s = true) :
    wsNormal (pyStrip s) = true := by
  unfold pyStrip
  obtain ⟨t, ht, _⟩ := rstrip_decomp (lstrip s)
  apply wsNormal_append_left (t := t)
  rw [← ht]
  obtain ⟨u, hu, _⟩ := lstrip_decomp s
  apply wsNormal_append_right (p := u)
  rw [← hu]
  exact h

theorem noTagPair_pyStrip {s : PyStr} (h : noTagPair s = true) :
    noTagPair (pyStrip s) = true := by
  unfold pyStrip
  obtain ⟨t, ht, _⟩ := rstrip_decomp (lstrip s)
  apply noTagPair_append_left (t := t)
  rw [← ht]
  obtain ⟨u, hu, _⟩ := lstrip_decomp s
  apply noTagPair_append_right (p := u)
  rw [← hu]
  exact h

theorem rstripTrunc_decomp (s : PyStr) : ∃ t, s = rstripTrunc s ++ t := by
  refine ⟨(s.reverse.takeWhile isTruncStrip).reverse, ?_⟩
  unfold rstripTrunc
  rw [← List.reverse_append, List.takeWhile_append_dropWhile, List.reverse_reverse]

theorem rstrip_cons_head {c : Char} {s : PyStr} (hc : isPySpace c = false) :
    ∃ t, rstrip (c :: s) = c :: t := by
  have hne := rstrip_ne_nil (List.mem_cons_self c s) hc
  obtain ⟨j, hj, _⟩ := rstrip_decomp (c :: s)
  cases hr : rstrip (c :: s) with
  | nil => exact absurd hr hne
  | cons a t =>
    rw [hr] at hj
    simp only [List.cons_append] at hj
    injection hj with h1 _
    exact ⟨t, by rw [h1]⟩

theorem pyStrip_cons_head {c : Char} {s : PyStr} (hc : isPySpace c = false) :
    ∃ t, pyStrip (c :: s) = c :: t := by
  unfold pyStrip
  have hl : lstrip (c :: s) = c :: s := by
    unfold lstrip
    rw [List.dropWhile_cons, if_neg (by simp [hc])]
  rw [hl]
  exact rstrip_cons_head hc

theorem oneSentenceCore_R_head (x : PyStr) :
    ∃ t, oneSentenceCore (str "Represents " ++ x) = 'R' :: t := by
  unfold oneSentenceCore
  have h0 : str "Represents " ++ x = 'R' :: (str "epresents " ++ x) := rfl
  rw [h0]
  obtain ⟨t1, ht1⟩ := pyStrip_cons_head (s := str "epresents " ++ x) (c := 'R') (by decide)
  rw [ht1]
  have h2 : removeTags ('R' :: t1) = 'R' :: removeTags t1 := by
    simp [removeTags, rtAux]
  rw [h2]
  have h3 : ('R' :: removeTags t1).takeWhile notArrow =
      'R' :: (removeTags t1).takeWhile notArrow := by
    rw [List.takeWhile_cons]
    simp [notArrow]
  rw [h3]
  obtain ⟨t4, ht4⟩ := firstSentence_head (c := 'R') (s := (removeTags t1).takeWhile notArrow)
  rw [ht4]
  obtain ⟨t5, ht5⟩ := collapseWs_head (c := 'R') (s := t4)
  rw [if_neg (by decide)] at ht5
  rw [ht5]
  exact pyStrip_cons_head (by decide)

theorem one_sentence_R_ne_nil (x : PyStr) (n : Nat) :
    one_sentence (str "Represents " ++ x) n ≠ [] := by
  unfold one_sentence
  obtain ⟨t, ht⟩ := oneSentenceCore_R_head x
  simp only []
  split
  · simp
  · rw [ht]; simp

theorem oneSentenceCore_head_not {s : PyStr} {c : Char} {t : PyStr}
    (h : oneSentenceCore s = c :: t) : isPySpace c = false := by
  unfold oneSentenceCore at h
  exact pyStrip_head_not h

theorem one_sentence_head_not_space {s : PyStr} {n : Nat} {c : Char} {t : PyStr}
    (h : one_sentence s n = c :: t) : isPySpace c = false := by
  unfold one_sentence at h
  simp only [] at h
  split at h
  · cases htr : rstripTrunc ((oneSentenceCore s).take n) with
    | nil =>
      rw [htr] at h
      simp only [List.nil_append] at h
      injection h with h1 _
      subst h1
      decide
    | cons a u =>
      rw [htr] at h
      simp only [List.cons_append] at h
      injection h with h1 _
      obtain ⟨j, hj⟩ := rstripTrunc_decomp ((oneSentenceCore s).take n)
      rw [htr] at hj
      have hcore : ∃ w, oneSentenceCore s = a :: w := by
        have hsplit := List.take_append_drop n (oneSentenceCore s)
        rw [hj] at hsplit
        refine ⟨u ++ (j ++ (oneSentenceCore s).drop n), ?_⟩
        calc oneSentenceCore s = ((a :: u) ++ j) ++ (oneSentenceCore s).drop n := hsplit.symm
          _ = a :: (u ++ (j ++ (oneSentenceCore s).drop n)) := by simp
      obtain ⟨w, hw⟩ := hcore
      rw [← h1]
      exact oneSentenceCore_head_not hw
  · exact oneSentenceCore_head_not h

/- ### one_sentence invariants -/

theorem mem_oneSentenceCore {s : PyStr} {a : Char} (h : a ∈ oneSentenceCore s) :
    a ∈ s ∨ a = ' ' := by
  unfold oneSentenceCore at h
  have h1 := mem_pyStrip h
  rcases mem_collapseWs h1 with h2 | h2
  · have h3 := mem_firstSentence h2
    have h4 : a ∈ removeTags (pyStrip s) := (List.takeWhile_sublist _).subset h3
    exact Or.inl (mem_pyStrip (mem_removeTags h4))
  · exact Or.inr h2

theorem mem_one_sentence {s : PyStr} {n : Nat} {a : Char} (h : a ∈ one_sentence s n) :
    a ∈ s ∨ a = ' ' ∨ a = '…' := by
  unfold one_sentence at h
  simp only [] at h
  split at h
  · rcases List.mem_append.mp h with h1 | h1
    · have h2 := mem_rstripTrunc h1
      have h3 : a ∈ oneSentenceCore s := (List.take_sublist _ _).subset h2
      rcases mem_oneSentenceCore h3 with h4 | h4
      · exact Or.inl h4
      · exact Or.inr (Or.inl h4)
    · have : a = '…' := by simpa using h1
      exact Or.inr (Or.inr this)
  · rcases mem_oneSentenceCore h with h1 | h1
    · exact Or.inl h1
    · exact Or.inr (Or.inl h1)

theorem one_sentence_arrowFree {s : PyStr} {n : Nat} :
    ∀ a ∈ one_sentence s n, a ≠ '→' := by
  have hcore : ∀ b ∈ oneSentenceCore s, b ≠ '→' := by
    intro b hb
    unfold oneSentenceCore at hb
    have h1 := mem_pyStrip hb
    rcases mem_collapseWs h1 with h2 | h2
    · have h3 := mem_firstSentence h2
      have h4 := List.mem_takeWhile_imp h3
      simpa [notArrow] using h4
    · subst h2; decide
  intro a ha
  unfold one_sentence at ha
  simp only [] at ha
  split at ha
  · rcases List.mem_append.mp ha with h1 | h1
    · exact hcore a ((List.take_sublist _ _).subset (mem_rstripTrunc h1))
    · have : a = '…' := by simpa using h1
      subst this; decide
  · exact hcore a ha

theorem noSentenceBreak_oneSentenceCore (s : PyStr) :
    noSentenceBreak (oneSentenceCore s) = true :=
  noSentenceBreak_pyStrip (noSentenceBreak_collapseWs (noSentenceBreak_firstSentence _))

theorem wsNormal_oneSentenceCore (s : PyStr) : wsNormal (oneSentenceCore s) = true :=
  wsNormal_pyStrip (wsNormal_collapseWs _)

theorem noTagPair_oneSentenceCore (s : PyStr) : noTagPair (oneSentenceCore s) = true := by
  unfold oneSentenceCore
  apply noTagPair_pyStrip
  apply noTagPair_collapseWs
  obtain ⟨t, ht⟩ := firstSentence_decomp ((removeTags (pyStrip s)).takeWhile notArrow)
  apply noTagPair_append_left (t := t)
  rw [← ht]
  apply noTagPair_append_left (t := (removeTags (pyStrip s)).dropWhile notArrow)
  rw [List.takeWhile_append_dropWhile]
  exact noTagPair_removeTags _

theorem noSentenceBreak_one_sentence (s : PyStr) (n : Nat) :
    noSentenceBreak (one_sentence s n) = true := by
  unfold one_sentence
  simp only []
  split
  · apply noSentenceBreak_append_single (by decide)
    obtain ⟨j, hj⟩ := rstripTrunc_decomp ((oneSentenceCore s).take n)
    apply noSentenceBreak_append_left (t := j)
    rw [← hj]
    apply noSentenceBreak_append_left (t := (oneSentenceCore s).drop n)
    rw [List.take_append_drop]
    exact noSentenceBreak_oneSentenceCore s
  · exact noSentenceBreak_oneSentenceCore s

theorem wsNormal_one_sentence (s : PyStr) (n : Nat) :
    wsNormal (one_sentence s n) = true := by
  unfold one_sentence
  simp only []
  split
  · apply wsNormal_append_single (by decide)
    obtain ⟨j, hj⟩ := rstripTrunc_decomp ((oneSentenceCore s).take n)
    apply wsNormal_append_left (t := j)
    rw [← hj]
    apply wsNormal_append_left (t := (oneSentenceCore s).drop n)
    rw [List.take_append_drop]
    exact wsNormal_oneSentenceCore s
  · exact wsNormal_oneSentenceCore s

theorem noTagPair_one_sentence (s : PyStr) (n : Nat) :
    noTagPair (one_sentence s n) = true := by
  unfold one_sentence
  simp only []
  split
  · apply noTagPair_append_single (by decide)
    obtain ⟨j, hj⟩ := rstripTrunc_decomp ((oneSentenceCore s).take n)
    apply noTagPair_append_left (t := j)
    rw [← hj]
    apply noTagPair_append_left (t := (oneSentenceCore s).drop n)
    rw [List.take_append_drop]
    exact noTagPair_oneSentenceCore s
  · exact noTagPair_oneSentenceCore s

theorem terminal_not_space {c : Char} (h : isTerminalPunct c = true) : isPySpace c = false := by
  unfold isTerminalPunct at h
  rcases (by simpa using h : ((c = '.' ∨ c = '!') ∨ c = '?') ∨ c = '…') with
    ((rfl | rfl) | rfl) | rfl <;> decide

theorem one_sentence_last_not_space {s : PyStr} {n : Nat} {c : Char}
    (h : (one_sentence s n).getLast? = some c) : isPySpace c = false := by
  unfold one_sentence at h
  simp only [] at h
  split at h
  · rw [List.getLast?_concat] at h
    injection h with h1
    rw [← h1]
    decide
  · unfold oneSentenceCore at h
    exact pyStrip_last_not h

/-- Feeding a string that is already in post-sanitization shape through
    _one_sentence leaves it unchanged. -/
theorem oneSentenceCore_fix {s : PyStr}
    (hh : ∀ c, s.head? = some c → isPySpace c = false)
    (hl : ∀ c, s.getLast? = some c → isPySpace c = false)
    (htag : noTagPair s = true)
    (harr : ∀ c ∈ s, c ≠ '→')
    (hnsb : noSentenceBreak s = true)
    (hws : wsNormal s = true) :
    oneSentenceCore s = s := by
  unfold oneSentenceCore
  rw [pyStrip_eq_self hh hl]
  rw [removeTags_eq_self htag]
  rw [List.takeWhile_eq_self_iff.mpr (fun c hc => by simpa [notArrow] using harr c hc)]
  rw [firstSentence_eq_self hnsb]
  rw [wsNormal_eq_self hws]
  exact pyStrip_eq_self hh hl

theorem one_sentence_fix {s : PyStr} {maxChars : Nat}
    (hlen : s.length ≤ maxChars)
    (hh : ∀ c, s.head? = some c → isPySpace c = false)
    (hl : ∀ c, s.getLast? = some c → isPySpace c = false)
    (htag : noTagPair s = true)
    (harr : ∀ c ∈ s, c ≠ '→')
    (hnsb : noSentenceBreak s = true)
    (hws : wsNormal s = true) :
    one_sentence s maxChars = s := by
  unfold one_sentence
  simp only []
  rw [oneSentenceCore_fix hh hl htag harr hnsb hws]
  rw [if_neg (by omega)]

/- ### normRhs invariants -/

theorem noSentenceBreak_suffix {x y : PyStr} (hd : ∃ t, x = t ++ y)
    (h : noSentenceBreak x = true) : noSentenceBreak y = true := by
  obtain ⟨t, ht⟩ := hd
  exact noSentenceBreak_append_right (ht ▸ h)

theorem wsNormal_suffix {x y : PyStr} (hd : ∃ t, x = t ++ y)
    (h : wsNormal x = true) : wsNormal y = true := by
  obtain ⟨t, ht⟩ := hd
  exact wsNormal_append_right (ht ▸ h)

theorem noTagPair_suffix {x y : PyStr} (hd : ∃ t, x = t ++ y)
    (h : noTagPair x = true) : noTagPair y = true := by
  obtain ⟨t, ht⟩ := hd
  exact noTagPair_append_right (ht ▸ h)

theorem dropEqWs_suffixE (s : PyStr) : ∃ t, s = t ++ dropEqWs s :=
  dropWhile_suffixE _ _

theorem stripLhsStage_suffixE (l s : PyStr) : ∃ t, s = t ++ stripLhsStage l s := by
  unfold stripLhsStage
  split
  · exact ⟨[], rfl⟩
  · exact stripReps_decomp _ _

theorem stripMeaningsStage_suffixE (m s : PyStr) : ∃ t, s = t ++ stripMeaningsStage m s := by
  unfold stripMeaningsStage
  split
  · exact ⟨[], rfl⟩
  · exact stripReps_decomp _ _

theorem mem_dropEqWs {s : PyStr} {a : Char} (h : a ∈ dropEqWs s) : a ∈ s :=
  (List.dropWhile_sublist _).subset h

theorem mem_stripLhsStage {l s : PyStr} {a : Char} (h : a ∈ stripLhsStage l s) : a ∈ s := by
  obtain ⟨t, ht⟩ := stripLhsStage_suffixE l s
  rw [ht]
  exact List.mem_append.mpr (Or.inr h)

theorem mem_stripMeaningsStage {m s : PyStr} {a : Char} (h : a ∈ stripMeaningsStage m s) :
    a ∈ s := by
  obtain ⟨t, ht⟩ := stripMeaningsStage_suffixE m s
  rw [ht]
  exact List.mem_append.mpr (Or.inr h)

theorem isCJKChar_lowerChar (c : Char) : isCJKChar (lowerChar c) = isCJKChar c := by
  unfold lowerChar
  split <;> first | decide | rfl

theorem refillEmpty_ne_nil (m r : PyStr) : refillEmpty m r ≠ [] := by
  unfold refillEmpty
  split
  · rw [List.append_assoc]
    exact one_sentence_R_ne_nil _ _
  · rename_i h
    simpa [List.isEmpty_iff] using h

theorem noSentenceBreak_refillEmpty (m : PyStr) {r : PyStr} (hr : noSentenceBreak r = true) :
    noSentenceBreak (refillEmpty m r) = true := by
  unfold refillEmpty
  split
  · exact noSentenceBreak_one_sentence _ _
  · exact hr

theorem wsNormal_refillEmpty (m : PyStr) {r : PyStr} (hr : wsNormal r = true) :
    wsNormal (refillEmpty m r) = true := by
  unfold refillEmpty
  split
  · exact wsNormal_one_sentence _ _
  · exact hr

theorem noTagPair_refillEmpty (m : PyStr) {r : PyStr} (hr : noTagPair r = true) :
    noTagPair (refillEmpty m r) = true := by
  unfold refillEmpty
  split
  · exact noTagPair_one_sentence _ _
  · exact hr

theorem refillEmpty_head_not_space (m : PyStr) {r : PyStr} {c : Char} {t : PyStr}
    (hr : ∀ c' t', r = c' :: t' → isPySpace c' = false)
    (h : refillEmpty m r = c :: t) : isPySpace c = false := by
  unfold refillEmpty at h
  split at h
  · exact one_sentence_head_not_space h
  · exact hr c t h

theorem refillEmpty_last_not_space (m : PyStr) {r : PyStr} {c : Char}
    (hr : ∀ c', r.getLast? = some c' → isPySpace c' = false)
    (h : (refillEmpty m r).getLast? = some c) : isPySpace c = false := by
  unfold refillEmpty at h
  split at h
  · exact one_sentence_last_not_space h
  · exact hr c h

theorem refillEmpty_arrowFree (m : PyStr) {r : PyStr} (hr : ∀ a ∈ r, a ≠ '→') :
    ∀ a ∈ refillEmpty m r, a ≠ '→' := by
  intro a ha
  unfold refillEmpty at ha
  split at ha
  · exact one_sentence_arrowFree a ha
  · exact hr a ha

theorem mem_refillEmpty {m r : PyStr} {a : Char} (h : a ∈ refillEmpty m r) :
    a ∈ r ∨ a ∈ pyLower m ∨ a ∈ str "Represents " ∨ a = '.' ∨ a = ' ' ∨ a = '…' := by
  unfold refillEmpty at h
  split at h
  · rcases mem_one_sentence h with h1 | h1 | h1
    · rcases List.mem_append.mp h1 with h2 | h2
      · rcases List.mem_append.mp h2 with h3 | h3
        · exact Or.inr (Or.inr (Or.inl h3))
        · exact Or.inr (Or.inl h3)
      · have h2' : a ∈ ['.'] := h2
        have : a = '.' := by simpa using h2'
        exact Or.inr (Or.inr (Or.inr (Or.inl this)))
    · exact Or.inr (Or.inr (Or.inr (Or.inr (Or.inl h1))))
    · exact Or.inr (Or.inr (Or.inr (Or.inr (Or.inr h1))))
  · exact Or.inl h

theorem forceTerminal_ne_nil {r : PyStr} (h : r ≠ []) : forceTerminal r ≠ [] := by
  unfold forceTerminal
  split
  · simp
  · exact h

theorem forceTerminal_terminal {r : PyStr} (h : r ≠ []) :
    terminalLastB (forceTerminal r) = true := by
  unfold forceTerminal
  split
  · simp [terminalLastB, List.getLast?_concat, isTerminalPunct]
  · rename_i hcond
    have hne : r.isEmpty = false := by simpa [List.isEmpty_iff] using h
    simp only [hne, Bool.not_false, Bool.true_and, Bool.not_eq_true'] at hcond
    simpa using hcond

theorem noSentenceBreak_forceTerminal {r : PyStr} (h : noSentenceBreak r = true) :
    noSentenceBreak (forceTerminal r) = true := by
  unfold forceTerminal
  split
  · exact noSentenceBreak_append_single (by decide) h
  · exact h

theorem wsNormal_forceTerminal {r : PyStr} (h : wsNormal r = true) :
    wsNormal (forceTerminal r) = true := by
  unfold forceTerminal
  split
  · exact wsNormal_append_single (by decide) h
  · exact h

theorem noTagPair_forceTerminal {r : PyStr} (h : noTagPair r = true) :
    noTagPair (forceTerminal r) = true := by
  unfold forceTerminal
  split
  · exact noTagPair_append_single (by decide) h
  · exact h

theorem mem_forceTerminal {r : PyStr} {a : Char} (h : a ∈ forceTerminal r) :
    a ∈ r ∨ a = '.' := by
  unfold forceTerminal at h
  split at h
  · rcases List.mem_append.mp h with h1 | h1
    · exact Or.inl h1
    · exact Or.inr (by simpa using h1)
  · exact Or.inl h

theorem forceTerminal_head {r : PyStr} {c : Char} {t : PyStr} (h : forceTerminal r = c :: t) :
    ∃ u, r = c :: u := by
  unfold forceTerminal at h
  split at h
  · rename_i hcond
    cases r with
    | nil => simp at hcond
    | cons a u =>
      simp only [List.cons_append] at h
      injection h with h1 h2
      exact ⟨u, by rw [h1]⟩
  · exact ⟨t, h⟩

theorem normRhs_ne_nil (l m r : PyStr) : normRhs l m r ≠ [] := by
  unfold normRhs
  exact forceTerminal_ne_nil (refillEmpty_ne_nil _ _)

theorem normRhs_terminal (l m r : PyStr) : terminalLastB (normRhs l m r) = true := by
  unfold normRhs
  exact forceTerminal_terminal (refillEmpty_ne_nil _ _)

theorem normRhs_nsb (l m r : PyStr) : noSentenceBreak (normRhs l m r) = true := by
  unfold normRhs
  apply noSentenceBreak_forceTerminal
  apply noSentenceBreak_refillEmpty
  apply noSentenceBreak_pyStrip
  apply noSentenceBreak_suffix (stripMeaningsStage_suffixE _ _)
  apply noSentenceBreak_suffix (stripLhsStage_suffixE _ _)
  apply noSentenceBreak_suffix (dropEqWs_suffixE _)
  exact noSentenceBreak_one_sentence _ _

theorem normRhs_ws (l m r : PyStr) : wsNormal (normRhs l m r) = true := by
  unfold normRhs
  apply wsNormal_forceTerminal
  apply wsNormal_refillEmpty
  apply wsNormal_pyStrip
  apply wsNormal_suffix (stripMeaningsStage_suffixE _ _)
  apply wsNormal_suffix (stripLhsStage_suffixE _ _)
  apply wsNormal_suffix (dropEqWs_suffixE _)
  exact wsNormal_one_sentence _ _

theorem normRhs_tag (l m r : PyStr) : noTagPair (normRhs l m r) = true := by
  unfold normRhs
  apply noTagPair_forceTerminal
  apply noTagPair_refillEmpty
  apply noTagPair_pyStrip
  apply noTagPair_suffix (stripMeaningsStage_suffixE _ _)
  apply noTagPair_suffix (stripLhsStage_suffixE _ _)
  apply noTagPair_suffix (dropEqWs_suffixE _)
  exact noTagPair_one_sentence _ _

theorem normRhs_arrowFree (l m r : PyStr) : ∀ a ∈ normRhs l m r, a ≠ '→' := by
  intro a ha
  unfold normRhs at ha
  rcases mem_forceTerminal ha with h | h
  · refine refillEmpty_arrowFree m ?_ a h
    intro b hb
    exact one_sentence_arrowFree b
      (mem_dropEqWs (mem_stripLhsStage (mem_stripMeaningsStage (mem_pyStrip hb))))
  · subst h; decide

theorem normRhs_head_not_space {l m r : PyStr} {c : Char} {t : PyStr}
    (h : normRhs l m r = c :: t) : isPySpace c = false := by
  unfold normRhs at h
  obtain ⟨u, hu⟩ := forceTerminal_head h
  exact refillEmpty_head_not_space m (fun c' t' h' => pyStrip_head_not h') hu

theorem normRhs_nonCJK {l m r : PyStr} (hm : ∀ c ∈ m, isCJKChar c = false) :
    ∀ a ∈ normRhs l m r, isCJKChar a = false := by
  intro a ha
  unfold normRhs at ha
  rcases mem_forceTerminal ha with h | h
  · rcases mem_refillEmpty h with h1 | h1 | h1 | h1 | h1 | h1
    · have h2 := mem_dropEqWs (mem_stripLhsStage (mem_stripMeaningsStage (mem_pyStrip h1)))
      rcases mem_one_sentence h2 with h3 | h3 | h3
      · have := (List.mem_filter.mp h3).2
        simpa using this
      · subst h3; decide
      · subst h3; decide
    · obtain ⟨b, hb, hb2⟩ := List.mem_map.mp h1
      rw [← hb2, isCJKChar_lowerChar]
      exact hm b hb
    · have hlit : ∀ x ∈ str "Represents ", isCJKChar x = false := by decide
      exact hlit a h1
    · subst h1; decide
    · subst h1; decide
    · subst h1; decide
  · subst h; decide

theorem normRhs_stripped (l m r : PyStr) : pyStrip (normRhs l m r) = normRhs l m r := by
  apply pyStrip_eq_self
  · intro c hc
    cases hn : normRhs l m r with
    | nil => exact absurd hn (normRhs_ne_nil l m r)
    | cons a t =>
      rw [hn] at hc
      have : a = c := by simpa using hc
      subst this
      exact normRhs_head_not_space hn
  · intro c hc
    have hterm := normRhs_terminal l m r
    unfold terminalLastB at hterm
    rw [hc] at hterm
    simp only [] at hterm
    exact terminal_not_space hterm

/- ### A second sanitization pass -/

theorem pyStrip_append_space (x : PyStr) : pyStrip (pyStrip x ++ [' ']) = pyStrip x := by
  cases hx : pyStrip x with
  | nil => decide
  | cons c t =>
    have hc := pyStrip_head_not hx
    unfold pyStrip
    have hl : lstrip ((c :: t) ++ [' ']) = (c :: t) ++ [' '] := by
      unfold lstrip
      rw [List.cons_append, List.dropWhile_cons, if_neg (by simp [hc])]
    rw [hl]
    rw [rstrip_append_space (t := [' '])
      (by
        intro y hy
        have h' : y = ' ' := by simpa using hy
        subst h'
        decide)]
    rw [← hx]
    exact rstrip_eq_self (fun c' hc' => pyStrip_last_not hc')

theorem one_sentence_space_cons_fix {R : PyStr} {n : Nat}
    (hstrip : pyStrip R = R)
    (htag : noTagPair R = true)
    (harr : ∀ c ∈ R, c ≠ '→')
    (hnsb : noSentenceBreak R = true)
    (hws : wsNormal R = true)
    (hlen : R.length ≤ n) :
    one_sentence (' ' :: R) n = R := by
  have hcore : oneSentenceCore (' ' :: R) = R := by
    unfold oneSentenceCore
    have h1 : pyStrip (' ' :: R) = R := by
      unfold pyStrip
      have hl : lstrip (' ' :: R) = lstrip R := by
        unfold lstrip
        rw [List.dropWhile_cons, if_pos (by decide)]
      rw [hl]
      exact hstrip
    rw [h1]
    rw [removeTags_eq_self htag]
    rw [List.takeWhile_eq_self_iff.mpr (fun c hc => by simpa [notArrow] using harr c hc)]
    rw [firstSentence_eq_self hnsb]
    rw [wsNormal_eq_self hws]
    exact hstrip
  unfold one_sentence
  simp only []
  rw [hcore, if_neg (by omega)]

theorem normRhs_space_cons (lhs meanings : PyStr) {R : PyStr}
    (hne : R ≠ [])
    (hstrip : pyStrip R = R)
    (htag : noTagPair R = true)
    (harr : ∀ c ∈ R, c ≠ '→')
    (hnsb : noSentenceBreak R = true)
    (hws : wsNormal R = true)
    (hcjk : ∀ c ∈ R, isCJKChar c = false)
    (hterm : terminalLastB R = true)
    (hlen : R.length ≤ 120)
    (hde : dropEqWs R = R)
    (hlr : stripLhsStage lhs R = R)
    (hmr : stripMeaningsStage meanings R = R) :
    normRhs lhs meanings (' ' :: R) = R := by
  unfold normRhs
  have h1 : strip_cjk (' ' :: R) = ' ' :: R := by
    unfold strip_cjk
    apply List.filter_eq_self.mpr
    intro a ha
    rcases List.mem_cons.mp ha with h | h
    · subst h; decide
    · simp [hcjk a h]
  rw [h1]
  rw [one_sentence_space_cons_fix hstrip htag harr hnsb hws hlen]
  rw [hde, hlr, hmr, hstrip]
  have h2 : refillEmpty meanings R = R := by
    unfold refillEmpty
    rw [if_neg (by simpa [List.isEmpty_iff] using hne)]
  rw [h2]
  unfold forceTerminal
  rw [if_neg (by simp [hterm])]

/-- Steps 3-11 applied a second time leave the line unchanged, provided the
    sanitized right side is within the cap, is not eroded again by the leading
    "="/whitespace stripper, and is a fixpoint of both repetition strippers. -/
theorem sanitizeArrow_idem (lhs meanings line : PyStr)
    (hm : ∀ c ∈ meanings, isCJKChar c = false)
    (hlen : (normRhs lhs meanings ((line.dropWhile notArrow).drop 1)).length ≤ 120)
    (hde : dropEqWs (normRhs lhs meanings ((line.dropWhile notArrow).drop 1)) =
      normRhs lhs meanings ((line.dropWhile notArrow).drop 1))
    (hlr : stripLhsStage lhs (normRhs lhs meanings ((line.dropWhile notArrow).drop 1)) =
      normRhs lhs meanings ((line.dropWhile notArrow).drop 1))
    (hmr : stripMeaningsStage meanings (normRhs lhs meanings ((line.dropWhile notArrow).drop 1)) =
      normRhs lhs meanings ((line.dropWhile notArrow).drop 1)) :
    sanitizeArrow lhs meanings (sanitizeArrow lhs meanings line) =
      sanitizeArrow lhs meanings line := by
  have harrL : ∀ c ∈ pyStrip (line.takeWhile notArrow), notArrow c = true := by
    intro c hc
    exact List.mem_takeWhile_imp (mem_pyStrip hc)
  have hout : sanitizeArrow lhs meanings line =
      pyStrip (line.takeWhile notArrow) ++
        (' ' :: '→' :: ' ' :: normRhs lhs meanings ((line.dropWhile notArrow).drop 1)) := by
    unfold sanitizeArrow
    rw [List.append_assoc]
    rfl
  rw [hout]
  unfold sanitizeArrow
  simp only []
  rw [List.takeWhile_append_of_pos harrL, List.dropWhile_append_of_pos harrL]
  rw [List.takeWhile_cons, if_pos (by decide), List.takeWhile_cons, if_neg (by decide)]
  rw [List.dropWhile_cons, if_pos (by decide), List.dropWhile_cons, if_neg (by decide)]
  rw [List.drop_one, List.tail_cons]
  rw [pyStrip_append_space]
  rw [normRhs_space_cons lhs meanings
    (normRhs_ne_nil _ _ _) (normRhs_stripped _ _ _) (normRhs_tag _ _ _)
    (normRhs_arrowFree _ _ _) (normRhs_nsb _ _ _) (normRhs_ws _ _ _)
    (normRhs_nonCJK hm) (normRhs_terminal _ _ _) hlen hde hlr hmr]
  rw [List.append_assoc]
  rfl

/- ### The arrow-line extraction and the shape of sanitized lines -/

theorem findArrowLine_spec : ∀ {text m k : PyStr}, findArrowLine k text = some m →
    arrowMatchTail k m = true := by
  intro text
  induction text with
  | nil => intro m k h; simp [findArrowLine] at h
  | cons c cs ih =>
    intro m k h
    simp only [findArrowLine] at h
    split at h
    · rename_i hc
      injection h with h1
      rw [← h1]
      exact hc
    · exact ih h

theorem arrowMatchTail_decomp {k m : PyStr} (h : arrowMatchTail k m = true) :
    ∃ w r2, m = k ++ w ++ '=' :: r2 ∧ (∀ c ∈ w, isPySpace c = true) ∧ '→' ∈ r2 := by
  unfold arrowMatchTail at h
  rw [Bool.and_eq_true] at h
  obtain ⟨t, ht⟩ := startsWith_iff.mp h.1
  have h2 := h.2
  rw [ht, List.drop_left] at h2
  split at h2
  · rename_i r2 heq
    refine ⟨t.takeWhile isPySpace, r2, ?_, fun c hc => List.mem_takeWhile_imp hc, ?_⟩
    · rw [ht, List.append_assoc]
      congr 1
      rw [← heq, List.takeWhile_append_dropWhile]
    · have : List.elem '→' r2 = true := h2
      exact List.elem_iff.mp this
  · exact absurd h2 (by simp)

theorem mem_dropWhile_of_neg {p : Char → Bool} : ∀ {l : PyStr} {a : Char}, a ∈ l →
    p a = false → a ∈ l.dropWhile p := by
  intro l
  induction l with
  | nil => intro a h _; simp at h
  | cons b bs ih =>
    intro a h hp
    rw [List.dropWhile_cons]
    by_cases hb : p b = true
    · rw [if_pos hb]
      rcases List.mem_cons.mp h with h1 | h1
      · subst h1; rw [hp] at hb; exact absurd hb (by simp)
      · exact ih h1 hp
    · rw [if_neg hb]
      exact h

theorem mem_rstrip_keep {t : PyStr} {c : Char} (hm : c ∈ t) (hc : isPySpace c = false) :
    c ∈ rstrip t := by
  unfold rstrip
  rw [List.mem_reverse]
  exact mem_dropWhile_of_neg (List.mem_reverse.mpr hm) hc

theorem rstrip_append_exists (A t : PyStr)
    (hA : ∀ c, A.getLast? = some c → isPySpace c = false) :
    ∃ mid, rstrip (A ++ t) = A ++ mid := by
  by_cases h : ∀ c ∈ t, isPySpace c = true
  · rw [rstrip_append_space h]
    exact ⟨[], by rw [rstrip_eq_self hA, List.append_nil]⟩
  · push_neg at h
    obtain ⟨c, hc, hc2⟩ := h
    exact ⟨rstrip t, rstrip_append_keep hc (by simpa using hc2)⟩

theorem lstrip_append_of_head {k r : PyStr}
    (hkne : k ≠ []) (hkh : ∀ c, k.head? = some c → isPySpace c = false) :
    lstrip (k ++ r) = k ++ r := by
  cases k with
  | nil => exact absurd rfl hkne
  | cons a k' =>
    unfold lstrip
    rw [List.cons_append, List.dropWhile_cons, if_neg (by simp [hkh a rfl])]

/-- sanitizeArrow on a line that begins with the kanji, spaces and "=": the
    result keeps that prefix and carries a sanitized nonempty right side. -/
theorem sanitizeArrow_shape (k w r2 lhs meanings : PyStr)
    (hkne : k ≠ []) (hkh : ∀ c, k.head? = some c → isPySpace c = false)
    (hkarr : ∀ c ∈ k, c ≠ '→')
    (hw : ∀ c ∈ w, isPySpace c = true)
    (hmcjk : ∀ c ∈ meanings, isCJKChar c = false) :
    ∃ mid R, sanitizeArrow lhs meanings (k ++ w ++ '=' :: r2) =
        k ++ w ++ ['='] ++ mid ++ str " → " ++ R ∧ R ≠ [] ∧
        (∀ c ∈ R, isCJKChar c = false) ∧ terminalLastB R = true := by
  have hwarr : ∀ c ∈ k ++ w, notArrow c = true := by
    intro c hc
    rcases List.mem_append.mp hc with h1 | h1
    · simpa [notArrow] using hkarr c h1
    · have hsp := hw c h1
      simp only [notArrow]
      have : c ≠ '→' := by
        intro hceq
        rw [hceq] at hsp
        exact absurd hsp (by decide)
      simpa using this
  unfold sanitizeArrow
  simp only []
  have htw : (k ++ w ++ '=' :: r2).takeWhile notArrow =
      ((k ++ w) ++ ['=']) ++ r2.takeWhile notArrow := by
    rw [List.takeWhile_append_of_pos hwarr]
    rw [List.takeWhile_cons, if_pos (by decide)]
    simp [List.append_assoc]
  rw [htw]
  have hL : ∃ mid, pyStrip (((k ++ w) ++ ['=']) ++ r2.takeWhile notArrow) =
      ((k ++ w) ++ ['=']) ++ mid := by
    unfold pyStrip
    rw [lstrip_append_of_head (k := (k ++ w) ++ ['=']) (r := r2.takeWhile notArrow)
      (by simp) ?_]
    · exact rstrip_append_exists _ _ (by
        intro c hc
        rw [List.getLast?_concat] at hc
        injection hc with h1
        rw [← h1]
        decide)
    · intro c hc
      cases k with
      | nil => exact absurd rfl hkne
      | cons a k' =>
        simp only [List.cons_append, List.head?_cons] at hc
        injection hc with h1
        rw [← h1]
        exact hkh a rfl
  obtain ⟨mid, hmid⟩ := hL
  rw [hmid]
  refine ⟨mid, normRhs lhs meanings (((k ++ w ++ '=' :: r2).dropWhile notArrow).drop 1),
    ?_, normRhs_ne_nil _ _ _, normRhs_nonCJK hmcjk, normRhs_terminal _ _ _⟩
  simp [List.append_assoc]

theorem fallbackLine_shape (k lhs meanings : PyStr)
    (hm : ∀ c ∈ meanings, isCJKChar c = false) :
    ∃ mid R, fallbackLine k lhs meanings = k ++ [' '] ++ ['='] ++ mid ++ str " → " ++ R ∧
      R ≠ [] ∧ (∀ c ∈ R, isCJKChar c = false) ∧ terminalLastB R = true := by
  refine ⟨' ' :: (if !lhs.isEmpty then lhs else if !meanings.isEmpty then meanings else str "—"),
    str "Represents " ++
      (if !(pyLower meanings).isEmpty then pyLower meanings else str "meaning") ++
      str " through its parts.", ?_, ?_, ?_, ?_⟩
  · unfold fallbackLine
    have h1 : str " = " = ' ' :: '=' :: ' ' :: ([] : PyStr) := rfl
    have h2 : str " → Represents " = ' ' :: '→' :: ' ' :: str "Represents " := rfl
    have h3 : str " → " = ' ' :: '→' :: ' ' :: ([] : PyStr) := rfl
    rw [h1, h2, h3]
    simp [List.append_assoc]
  · rw [show str "Represents " = 'R' :: str "epresents " from rfl]
    simp
  · intro c hc
    rcases List.mem_append.mp hc with h1 | h1
    · rcases List.mem_append.mp h1 with h2 | h2
      · exact (by decide : ∀ x ∈ str "Represents ", isCJKChar x = false) c h2
      · split at h2
        · obtain ⟨b, hb, hb2⟩ := List.mem_map.mp h2
          rw [← hb2, isCJKChar_lowerChar]
          exact hm b hb
        · exact (by decide : ∀ x ∈ str "meaning", isCJKChar x = false) c h2
    · exact (by decide : ∀ x ∈ str " through its parts.", isCJKChar x = false) c h1
  · unfold terminalLastB
    rw [List.getLast?_append_of_ne_nil _ (by
      rw [show str " through its parts." = ' ' :: str "through its parts." from rfl]
      simp)]
    rw [show (str " through its parts.").getLast? = some '.' from by decide]
    decide

theorem pyStrip_match_line {k w r : PyStr}
    (hkne : k ≠ []) (hkh : ∀ c, k.head? = some c → isPySpace c = false)
    (harr : '→' ∈ r) :
    pyStrip (k ++ w ++ '=' :: r) = k ++ (w ++ '=' :: rstrip r) ∧ '→' ∈ rstrip r := by
  have hmem : '→' ∈ rstrip r := mem_rstrip_keep harr (by decide)
  refine ⟨?_, hmem⟩
  have e : k ++ w ++ '=' :: r = k ++ (w ++ '=' :: r) := by rw [List.append_assoc]
  rw [e]
  unfold pyStrip
  rw [lstrip_append_of_head hkne hkh]
  rw [rstrip_append_keep (c := '→')
    (List.mem_append.mpr (Or.inr (List.mem_cons_of_mem _ harr))) (by decide)]
  congr 1
  rw [rstrip_append_keep (c := '→') (List.mem_cons_of_mem _ harr) (by decide)]
  congr 1
  have e2 : ('=' :: r : PyStr) = ['='] ++ r := rfl
  rw [e2]
  rw [rstrip_append_keep (c := '→') harr (by decide)]
  rfl

theorem arrow_mem_synthLine (k lhs meanings : PyStr) : '→' ∈ synthLine k lhs meanings := by
  unfold synthLine
  have h : '→' ∈ str " → Represents " := by decide
  exact List.mem_append.mpr (Or.inl (List.mem_append.mpr (Or.inl (List.mem_append.mpr
    (Or.inr h)))))

theorem synthLine_reshape (k lhs meanings : PyStr) :
    synthLine k lhs meanings = k ++ [' '] ++ '=' ::
      (' ' :: (lhs ++ str " → Represents " ++ pyLower meanings ++ str " through its parts.")) := by
  unfold synthLine
  rw [show str " = " = ' ' :: '=' :: ' ' :: ([] : PyStr) from rfl]
  simp [List.append_assoc]

theorem generate_mnemonic_found (kanjiData : List (PyStr × KanjiDetails)) (st : RagState)
    (search : PyStr → List Int) (pipe : PyStr → Option PyStr) (kanji : PyStr)
    (details : KanjiDetails)
    (hfound : lookupStore kanjiData (pyStrip kanji) = some details) :
    generate_mnemonic kanjiData st search pipe kanji =
      (match pipe (buildPrompt (pyStrip kanji)
          (if !details.wk_radicals.isEmpty then joinSep (str " + ") details.wk_radicals
            else joinSep (str ", ") details.meanings)
          (joinSep (str ", ") details.meanings)
          (joinSep (str "\n\n") (retrieve_relevant_radicals st
            (search (joinSep (str " ") details.wk_radicals))))) with
      | none => fallbackLine (pyStrip kanji)
          (if !details.wk_radicals.isEmpty then joinSep (str " + ") details.wk_radicals
            else joinSep (str ", ") details.meanings)
          (joinSep (str ", ") details.meanings)
      | some raw =>
        let text := collapseWs ((pyStrip raw).map (fun c => if c = '|' then ' ' else c))
        let line := extractLine (pyStrip kanji)
          (if !details.wk_radicals.isEmpty then joinSep (str " + ") details.wk_radicals
            else joinSep (str ", ") details.meanings)
          (joinSep (str ", ") details.meanings) text
        if line.contains '→' then
          sanitizeArrow
            (if !details.wk_radicals.isEmpty then joinSep (str " + ") details.wk_radicals
              else joinSep (str ", ") details.meanings)
            (joinSep (str ", ") details.meanings) line
        else line) := by
  unfold generate_mnemonic
  simp only []
  rw [hfound]

theorem generate_mnemonic_not_found (kanjiData : List (PyStr × KanjiDetails)) (st : RagState)
    (search : PyStr → List Int) (pipe : PyStr → Option PyStr) (kanji : PyStr)
    (h : lookupStore kanjiData (pyStrip kanji) = none) :
    generate_mnemonic kanjiData st search pipe kanji =
      str "Kanji " ++ pyStrip kanji ++ str " not found." := by
  unfold generate_mnemonic
  simp only []
  rw [h]

theorem pyStrip_head_not' {s : PyStr} (hne : pyStrip s ≠ []) :
    ∀ c, (pyStrip s).head? = some c → isPySpace c = false := by
  intro c hc
  cases hk : pyStrip s with
  | nil => exact absurd hk hne
  | cons a t =>
    rw [hk] at hc
    have : a = c := by simpa using hc
    subst this
    exact pyStrip_head_not hk

theorem c1_generate_shape (kanjiData : List (PyStr × KanjiDetails)) (st : RagState)
    (search : PyStr → List Int) (pipe : PyStr → Option PyStr) (kanji : PyStr)
    (details : KanjiDetails)
    (hfound : lookupStore kanjiData (pyStrip kanji) = some details)
    (hkne : pyStrip kanji ≠ [])
    (hkarr : ∀ c ∈ pyStrip kanji, c ≠ '→')
    (hmcjk : ∀ c ∈ joinSep (str ", ") details.meanings, isCJKChar c = false) :
    ∃ w mid R, generate_mnemonic kanjiData st search pipe kanji =
        pyStrip kanji ++ w ++ ['='] ++ mid ++ str " → " ++ R ∧
      (∀ c ∈ w, isPySpace c = true) ∧ R ≠ [] ∧
      (∀ c ∈ R, isCJKChar c = false) ∧ terminalLastB R = true := by
  have hkh := pyStrip_head_not' hkne
  rw [generate_mnemonic_found kanjiData st search pipe kanji details hfound]
  cases hp : pipe (buildPrompt (pyStrip kanji)
      (if !details.wk_radicals.isEmpty then joinSep (str " + ") details.wk_radicals
        else joinSep (str ", ") details.meanings)
      (joinSep (str ", ") details.meanings)
      (joinSep (str "\n\n") (retrieve_relevant_radicals st
        (search (joinSep (str " ") details.wk_radicals))))) with
  | none =>
    simp only []
    obtain ⟨mid, R, he, hne, hcjk, ht⟩ := fallbackLine_shape (pyStrip kanji)
      (if !details.wk_radicals.isEmpty then joinSep (str " + ") details.wk_radicals
        else joinSep (str ", ") details.meanings)
      (joinSep (str ", ") details.meanings) hmcjk
    refine ⟨[' '], mid, R, he, ?_, hne, hcjk, ht⟩
    intro c hc
    have : c = ' ' := by simpa using hc
    subst this
    decide
  | some raw =>
    simp only []
    unfold extractLine
    cases hf : findArrowLine (pyStrip kanji)
        (collapseWs ((pyStrip raw).map (fun c => if c = '|' then ' ' else c))) with
    | some mm =>
      simp only []
      have hspec := findArrowLine_spec hf
      obtain ⟨w, r2, hmm, hw, harr2⟩ := arrowMatchTail_decomp hspec
      subst hmm
      obtain ⟨hps, harr3⟩ := pyStrip_match_line (w := w) (r := r2) hkne hkh harr2
      rw [hps]
      have hre : pyStrip kanji ++ (w ++ '=' :: rstrip r2) =
          pyStrip kanji ++ w ++ '=' :: rstrip r2 := (List.append_assoc _ _ _).symm
      rw [hre]
      have hcontains : (pyStrip kanji ++ w ++ '=' :: rstrip r2).contains '→' = true := by
        apply List.elem_iff.mpr
        exact List.mem_append.mpr (Or.inr (List.mem_cons_of_mem _ harr3))
      rw [if_pos hcontains]
      obtain ⟨mid, R, he, hne, hcjk, ht⟩ := sanitizeArrow_shape (pyStrip kanji) w (rstrip r2)
        (if !details.wk_radicals.isEmpty then joinSep (str " + ") details.wk_radicals
          else joinSep (str ", ") details.meanings)
        (joinSep (str ", ") details.meanings) hkne hkh hkarr hw hmcjk
      exact ⟨w, mid, R, he, hw, hne, hcjk, ht⟩
    | none =>
      simp only []
      have hcontains : (synthLine (pyStrip kanji)
          (if !details.wk_radicals.isEmpty then joinSep (str " + ") details.wk_radicals
            else joinSep (str ", ") details.meanings)
          (joinSep (str ", ") details.meanings)).contains '→' = true := by
        apply List.elem_iff.mpr
        exact arrow_mem_synthLine _ _ _
      rw [if_pos hcontains]
      rw [synthLine_reshape]
      have hre : pyStrip kanji ++ [' '] ++ '=' ::
          (' ' :: ((if !details.wk_radicals.isEmpty then joinSep (str " + ") details.wk_radicals
              else joinSep (str ", ") details.meanings) ++ str " → Represents " ++
            pyLower (joinSep (str ", ") details.meanings) ++ str " through its parts.")) =
          pyStrip kanji ++ [' '] ++ '=' ::
          (' ' :: ((if !details.wk_radicals.isEmpty then joinSep (str " + ") details.wk_radicals
              else joinSep (str ", ") details.meanings) ++ str " → Represents " ++
            pyLower (joinSep (str ", ") details.meanings) ++ str " through its parts.")) := rfl
      obtain ⟨mid, R, he, hne, hcjk, ht⟩ := sanitizeArrow_shape (pyStrip kanji) [' ']
        (' ' :: ((if !details.wk_radicals.isEmpty then joinSep (str " + ") details.wk_radicals
            else joinSep (str ", ") details.meanings) ++ str " → Represents " ++
          pyLower (joinSep (str ", ") details.meanings) ++ str " through its parts."))
        (if !details.wk_radicals.isEmpty then joinSep (str " + ") details.wk_radicals
          else joinSep (str ", ") details.meanings)
        (joinSep (str ", ") details.meanings) hkne hkh hkarr
        (by
          intro c hc
          have : c = ' ' := by simpa using hc
          subst this
          decide) hmcjk
      refine ⟨[' '], mid, R, he, ?_, hne, hcjk, ht⟩
      intro c hc
      have : c = ' ' := by simpa using hc
      subst this
      decide

/- ### The synthesized no-match line survives sanitization -/

theorem rhsTail_facts (lm : PyStr) :
    (str "Represents " ++ (lm ++ str " through its parts.")) ≠ [] ∧
    (∀ c, (str "Represents " ++ (lm ++ str " through its parts.")).head? = some c →
      isPySpace c = false) ∧
    (∀ c, (str "Represents " ++ (lm ++ str " through its parts.")).getLast? = some c →
      isPySpace c = false) := by
  have hcons : str "Represents " ++ (lm ++ str " through its parts.") =
      'R' :: (str "epresents " ++ (lm ++ str " through its parts.")) := rfl
  refine ⟨by rw [hcons]; simp, ?_, ?_⟩
  · intro c hc
    rw [hcons] at hc
    simp only [List.head?_cons] at hc
    injection hc with h1
    rw [← h1]
    decide
  · intro c hc
    rw [List.getLast?_append_of_ne_nil _ (by
        rw [show str " through its parts." = ' ' :: str "through its parts." from rfl]
        simp),
      List.getLast?_append_of_ne_nil _ (by
        rw [show str " through its parts." = ' ' :: str "through its parts." from rfl]
        simp)] at hc
    rw [show (str " through its parts.").getLast? = some '.' from by decide] at hc
    injection hc with h1
    rw [← h1]
    decide

theorem c6_synthesis (k lhs meanings text : PyStr)
    (hnomatch : findArrowLine k text = none)
    (hkne : k ≠ [])
    (hkstrip : pyStrip k = k)
    (hkarr : ∀ c ∈ k, c ≠ '→')
    (hlne : lhs ≠ [])
    (hlstrip : pyStrip lhs = lhs)
    (hlarr : ∀ c ∈ lhs, c ≠ '→')
    (hmcjk : ∀ c ∈ pyLower meanings, isCJKChar c = false)
    (hmarr : ∀ c ∈ pyLower meanings, c ≠ '→')
    (htag : noTagPair (str "Represents " ++ pyLower meanings ++ str " through its parts.") = true)
    (hnsb : noSentenceBreak
      (str "Represents " ++ pyLower meanings ++ str " through its parts.") = true)
    (hws : wsNormal (str "Represents " ++ pyLower meanings ++ str " through its parts.") = true)
    (hlen : (str "Represents " ++ pyLower meanings ++ str " through its parts.").length ≤ 120)
    (hrep1 : stripRep1 (pyStrip lhs)
      (str "Represents " ++ pyLower meanings ++ str " through its parts.") = none)
    (hrep2 : meanings ≠ [] → stripRep1 (pyStrip meanings)
      (str "Represents " ++ pyLower meanings ++ str " through its parts.") = none) :
    (if (extractLine k lhs meanings text).contains '→' then
      sanitizeArrow lhs meanings (extractLine k lhs meanings text)
    else extractLine k lhs meanings text) = synthLine k lhs meanings := by
  have hex : extractLine k lhs meanings text = synthLine k lhs meanings := by
    unfold extractLine
    rw [hnomatch]
  rw [hex]
  rw [if_pos (List.elem_iff.mpr (arrow_mem_synthLine k lhs meanings))]
  -- abbreviations
  have hassoc : str "Represents " ++ pyLower meanings ++ str " through its parts." =
      str "Represents " ++ (pyLower meanings ++ str " through its parts.") :=
    List.append_assoc _ _ _
  obtain ⟨hne', hh', hl'⟩ := rhsTail_facts (pyLower meanings)
  have hRarr : ∀ c ∈ str "Represents " ++ (pyLower meanings ++ str " through its parts."),
      c ≠ '→' := by
    intro c hc
    rcases List.mem_append.mp hc with h1 | h1
    · exact (by decide : ∀ x ∈ str "Represents ", x ≠ '→') c h1
    · rcases List.mem_append.mp h1 with h2 | h2
      · exact hmarr c h2
      · exact (by decide : ∀ x ∈ str " through its parts.", x ≠ '→') c h2
  have hRcjk : ∀ c ∈ str "Represents " ++ (pyLower meanings ++ str " through its parts."),
      isCJKChar c = false := by
    intro c hc
    rcases List.mem_append.mp hc with h1 | h1
    · exact (by decide : ∀ x ∈ str "Represents ", isCJKChar x = false) c h1
    · rcases List.mem_append.mp h1 with h2 | h2
      · exact hmcjk c h2
      · exact (by decide : ∀ x ∈ str " through its parts.", isCJKChar x = false) c h2
  have hRstrip : pyStrip (str "Represents " ++ (pyLower meanings ++ str " through its parts.")) =
      str "Represents " ++ (pyLower meanings ++ str " through its parts.") :=
    pyStrip_eq_self hh' hl'
  have hRterm : terminalLastB
      (str "Represents " ++ (pyLower meanings ++ str " through its parts.")) = true := by
    unfold terminalLastB
    rw [List.getLast?_append_of_ne_nil _ (by
        rw [show str " through its parts." = ' ' :: str "through its parts." from rfl]
        simp),
      List.getLast?_append_of_ne_nil _ (by
        rw [show str " through its parts." = ' ' :: str "through its parts." from rfl]
        simp)]
    rw [show (str " through its parts.").getLast? = some '.' from by decide]
    decide
  have hRde : dropEqWs (str "Represents " ++ (pyLower meanings ++ str " through its parts.")) =
      str "Represents " ++ (pyLower meanings ++ str " through its parts.") := by
    unfold dropEqWs
    rw [show str "Represents " ++ (pyLower meanings ++ str " through its parts.") =
      'R' :: (str "epresents " ++ (pyLower meanings ++ str " through its parts.")) from rfl]
    rw [List.dropWhile_cons, if_neg (by decide)]
  have hRlhs : stripLhsStage lhs
      (str "Represents " ++ (pyLower meanings ++ str " through its parts.")) =
      str "Represents " ++ (pyLower meanings ++ str " through its parts.") := by
    unfold stripLhsStage
    rw [if_neg (by simpa [List.isEmpty_iff] using hlne)]
    exact stripReps_eq_self (hassoc ▸ hrep1)
  have hRme : stripMeaningsStage meanings
      (str "Represents " ++ (pyLower meanings ++ str " through its parts.")) =
      str "Represents " ++ (pyLower meanings ++ str " through its parts.") := by
    unfold stripMeaningsStage
    split
    · rfl
    · rename_i hm
      have hmne : meanings ≠ [] := by simpa [List.isEmpty_iff] using hm
      exact stripReps_eq_self (hassoc ▸ hrep2 hmne)
  -- decompose synthLine for the split at the first arrow
  have hsw : synthLine k lhs meanings =
      ((k ++ str " = " ++ lhs) ++ [' ']) ++ ('→' :: ' ' ::
        (str "Represents " ++ (pyLower meanings ++ str " through its parts."))) := by
    unfold synthLine
    rw [show str " → Represents " = ' ' :: '→' :: ' ' :: str "Represents " from rfl]
    simp [List.append_assoc]
  have hParrow : ∀ c ∈ (k ++ str " = " ++ lhs) ++ [' '], notArrow c = true := by
    intro c hc
    simp only [notArrow]
    have : c ≠ '→' := by
      rcases List.mem_append.mp hc with h1 | h1
      · rcases List.mem_append.mp h1 with h2 | h2
        · rcases List.mem_append.mp h2 with h3 | h3
          · exact hkarr c h3
          · exact (by decide : ∀ x ∈ str " = ", x ≠ '→') c h3
        · exact hlarr c h2
      · have : c = ' ' := by simpa using h1
        subst this; decide
    simpa using this
  unfold sanitizeArrow
  simp only []
  rw [hsw]
  rw [List.takeWhile_append_of_pos hParrow, List.dropWhile_append_of_pos hParrow]
  rw [List.takeWhile_cons, if_neg (by decide)]
  rw [List.dropWhile_cons, if_neg (by decide)]
  rw [List.append_nil, List.drop_one, List.tail_cons]
  -- left side
  have hlast : ∀ c, ((k ++ str " = " ++ lhs) ++ [' ']).getLast? = some c →
      isPySpace c = true ∨ c = ' ' := by
    intro c hc
    rw [List.getLast?_concat] at hc
    injection hc with h1
    exact Or.inr h1.symm
  have hLstrip : pyStrip ((k ++ str " = " ++ lhs) ++ [' ']) = k ++ str " = " ++ lhs := by
    unfold pyStrip
    have hkh := pyStrip_head_not' (s := k) (by rw [hkstrip]; exact hkne)
    rw [hkstrip] at hkh
    have e1 : (k ++ str " = " ++ lhs) ++ [' '] = k ++ (str " = " ++ lhs ++ [' ']) := by
      simp [List.append_assoc]
    rw [e1, lstrip_append_of_head hkne hkh, ← e1]
    rw [rstrip_append_space (t := [' ']) (by
      intro y hy
      have : y = ' ' := by simpa using hy
      subst this
      decide)]
    apply rstrip_eq_self
    intro c hc
    rw [List.getLast?_append_of_ne_nil _ hlne] at hc
    apply pyStrip_last_not (s := lhs)
    rw [hlstrip]
    exact hc
  rw [hLstrip]
  -- right side
  rw [normRhs_space_cons lhs meanings hne' hRstrip (hassoc ▸ htag) hRarr (hassoc ▸ hnsb)
    (hassoc ▸ hws) hRcjk hRterm (by rw [← hassoc]; simpa using hlen) hRde hRlhs hRme]
  -- reassemble
  rw [show str " → " = ' ' :: '→' :: ' ' :: ([] : PyStr) from rfl]
  simp [List.append_assoc]

/- ### Claim theorems -/

/-- Claim C1, counterexample: the claim quantifies over every kanji string,
    but for a kanji with no record the call returns "Kanji <k> not found.",
    which is not a syntactically valid MnemonicLine. -/
theorem C1_counterexample :
    validMnemonicLine (str "水")
      (generate_mnemonic [] ⟨[], none⟩ (fun _ => []) (fun _ => none) (str "水")) = false := by
  decide

/-- Claim C1 (amended): for every kanji whose stripped form is a nonempty,
    arrow-free key of the Kanji Record Store whose joined meanings contain no
    CJK characters, generate_mnemonic returns a line of the shape
    "<k><spaces>=<mid> → <rhs>" whose right-hand side after the final " → "
    separator is nonempty, contains no CJK characters and ends in terminal
    punctuation -- whatever the generator produced, including when it raised;
    a kanji with no record instead yields "Kanji <k> not found.". -/
theorem C1_theorem (kanjiData : List (PyStr × KanjiDetails)) (st : RagState)
    (search : PyStr → List Int) (pipe : PyStr → Option PyStr) (kanji : PyStr)
    (details : KanjiDetails)
    (hfound : lookupStore kanjiData (pyStrip kanji) = some details)
    (hkne : pyStrip kanji ≠ [])
    (hkarr : ∀ c ∈ pyStrip kanji, c ≠ '→')
    (hmcjk : ∀ c ∈ joinSep (str ", ") details.meanings, isCJKChar c = false) :
    ∃ w mid R, generate_mnemonic kanjiData st search pipe kanji =
        pyStrip kanji ++ w ++ ['='] ++ mid ++ str " → " ++ R ∧
      (∀ c ∈ w, isPySpace c = true) ∧ R ≠ [] ∧
      (∀ c ∈ R, isCJKChar c = false) ∧ terminalLastB R = true :=
  c1_generate_shape kanjiData st search pipe kanji details hfound hkne hkarr hmcjk

theorem C1_witness :
    (lookupStore [(str "買", (⟨[str "buy", str "purchase"], [str "Net", str "Shell"]⟩ :
        KanjiDetails))] (pyStrip (str "買")) =
      some (⟨[str "buy", str "purchase"], [str "Net", str "Shell"]⟩ : KanjiDetails)) ∧
    pyStrip (str "買") ≠ [] ∧ (∀ c ∈ pyStrip (str "買"), c ≠ '→') ∧
    (∀ c ∈ joinSep (str ", ")
        (⟨[str "buy", str "purchase"], [str "Net", str "Shell"]⟩ : KanjiDetails).meanings,
      isCJKChar c = false) ∧
    (∃ w mid R, generate_mnemonic
        [(str "買", (⟨[str "buy", str "purchase"], [str "Net", str "Shell"]⟩ : KanjiDetails))]
        ⟨[], none⟩ (fun _ => [])
        (fun _ => some (str "買 = Net + Shell → Buying involves catching valuable shells in a net."))
        (str "買") =
        pyStrip (str "買") ++ w ++ ['='] ++ mid ++ str " → " ++ R ∧
      (∀ c ∈ w, isPySpace c = true) ∧ R ≠ [] ∧
      (∀ c ∈ R, isCJKChar c = false) ∧ terminalLastB R = true) :=
  ⟨rfl, by decide, by decide, by decide,
    C1_theorem _ _ _ _ _ _ rfl (by decide) (by decide) (by decide)⟩

/-- Claim C2, counterexample: a kanji with no record does not degrade to a
    fallback MnemonicLine; it yields the non-mnemonic string
    "Kanji <k> not found.". -/
theorem C2_counterexample :
    generate_mnemonic [(str "買", (⟨[str "buy"], [str "Net"]⟩ : KanjiDetails))]
        ⟨[], none⟩ (fun _ => []) (fun _ => none) (str "犬") =
      str "Kanji 犬 not found." ∧
    validMnemonicLine (str "犬")
      (generate_mnemonic [(str "買", (⟨[str "buy"], [str "Net"]⟩ : KanjiDetails))]
        ⟨[], none⟩ (fun _ => []) (fun _ => none) (str "犬")) = false := by
  constructor
  · decide
  · decide

/-- Claim C2 (amended): when the requested kanji has no record in the store,
    generate_mnemonic returns normally (it never raises in this model) but
    produces the non-mnemonic string "Kanji <k> not found." instead of a
    fallback MnemonicLine, without consulting the generator. -/
theorem C2_theorem (kanjiData : List (PyStr × KanjiDetails)) (st : RagState)
    (search : PyStr → List Int) (pipe : PyStr → Option PyStr) (kanji : PyStr)
    (h : lookupStore kanjiData (pyStrip kanji) = none) :
    generate_mnemonic kanjiData st search pipe kanji =
      str "Kanji " ++ pyStrip kanji ++ str " not found." :=
  generate_mnemonic_not_found kanjiData st search pipe kanji h

theorem C2_witness :
    (lookupStore [(str "犬", (⟨[str "dog"], [str "X"]⟩ : KanjiDetails))]
      (pyStrip (str "猫")) = none) ∧
    generate_mnemonic [(str "犬", (⟨[str "dog"], [str "X"]⟩ : KanjiDetails))]
        ⟨[], none⟩ (fun _ => []) (fun _ => none) (str "猫") =
      str "Kanji " ++ pyStrip (str "猫") ++ str " not found." :=
  ⟨rfl, C2_theorem _ _ _ _ _ rfl⟩

/-- Claim C3, counterexample: with a present, nonempty index, an empty set of
    radical names still queries the index with the empty joined string and can
    return documents, so "empty radical names implies empty result" fails. -/
theorem C3_counterexample :
    retrieve_relevant_radicals ⟨[str "Radical: net"], some [[0]]⟩
      ((fun _ => [(0 : Int), -1, -1]) (joinSep (str " ") ([] : List PyStr))) ≠ [] := by
  decide

/-- Claim C3 (amended): the retriever returns an empty list whenever the
    stored document list is empty or the embedder/index pair is absent, and it
    returns normally in both situations; an empty radical-name set alone does
    not force an empty result. -/
theorem C3_theorem (st : RagState) (idxs : List Int)
    (h : st.radicalDocs = [] ∨ st.faissIndex = none) :
    retrieve_relevant_radicals st idxs = [] := by
  unfold retrieve_relevant_radicals
  rcases h with h | h
  · rw [if_pos (by simp [h])]
  · by_cases hd : st.radicalDocs.isEmpty = true
    · rw [if_pos hd]
    · rw [if_neg hd, h]

theorem C3_witness :
    ((⟨[], none⟩ : RagState).radicalDocs = [] ∨ (⟨[], none⟩ : RagState).faissIndex = none) ∧
    retrieve_relevant_radicals ⟨[], none⟩ [(0 : Int), 1, 2] = [] :=
  ⟨Or.inl rfl, C3_theorem ⟨[], none⟩ [(0 : Int), 1, 2] (Or.inl rfl)⟩

/-- Claim C4, counterexample: a 121-character right-hand side is truncated to
    120 characters and then the ellipsis is appended, so the result has 121
    characters, not "exactly 120 characters or fewer". -/
theorem C4_counterexample :
    120 < (List.replicate 121 'a').length ∧
    ¬ (one_sentence (List.replicate 121 'a') 120).length ≤ 120 := by
  constructor
  · decide
  · decide

/-- Claim C4 (amended): whenever the collapsed first sentence still exceeds
    120 characters, the one-sentence/truncation stage produces at most 121
    characters (120 kept characters plus the appended ellipsis) and the result
    ends with the ellipsis marker; an input longer than 120 characters whose
    first-sentence reduction already fits is returned without any ellipsis. -/
theorem C4_theorem (s : PyStr) (h : 120 < (oneSentenceCore s).length) :
    (one_sentence s 120).length ≤ 121 ∧ (one_sentence s 120).getLast? = some '…' := by
  unfold one_sentence
  simp only []
  rw [if_pos h]
  constructor
  · rw [List.length_append]
    have h1 := rstripTrunc_length_le ((oneSentenceCore s).take 120)
    have h2 : ((oneSentenceCore s).take 120).length ≤ 120 := by
      rw [List.length_take]
      omega
    simp only [List.length_cons, List.length_nil]
    omega
  · exact List.getLast?_concat _

theorem C4_witness :
    120 < (oneSentenceCore (List.replicate 121 'a')).length ∧
    ((one_sentence (List.replicate 121 'a') 120).length ≤ 121 ∧
      (one_sentence (List.replicate 121 'a') 120).getLast? = some '…') :=
  ⟨by decide, C4_theorem (List.replicate 121 'a') (by decide)⟩

/-- Claim C5, counterexample: a line already produced by steps 3-11 is not a
    fixpoint of a second pass: stripping the meanings repetition in the first
    pass can expose a fresh leading lhs repetition that only the second pass
    removes. -/
theorem C5_counterexample :
    sanitizeArrow (str "X") (str "M")
        (sanitizeArrow (str "X") (str "M") (str "買 = X → M X: rest")) ≠
      sanitizeArrow (str "X") (str "M") (str "買 = X → M X: rest") := by
  decide

/-- Claim C5 (amended): applying normalization steps 3-11 a second time
    yields the identical line provided the first pass's sanitized right-hand
    side is at most 120 characters, is unchanged by the leading "="/whitespace
    stripper, and is a fixpoint of both the lhs- and meanings-repetition
    strippers (and the meanings string is CJK-free); without these conditions
    a second pass can differ. -/
theorem C5_theorem (lhs meanings line : PyStr)
    (hm : ∀ c ∈ meanings, isCJKChar c = false)
    (hlen : (normRhs lhs meanings ((line.dropWhile notArrow).drop 1)).length ≤ 120)
    (hde : dropEqWs (normRhs lhs meanings ((line.dropWhile notArrow).drop 1)) =
      normRhs lhs meanings ((line.dropWhile notArrow).drop 1))
    (hlr : stripLhsStage lhs (normRhs lhs meanings ((line.dropWhile notArrow).drop 1)) =
      normRhs lhs meanings ((line.dropWhile notArrow).drop 1))
    (hmr : stripMeaningsStage meanings
        (normRhs lhs meanings ((line.dropWhile notArrow).drop 1)) =
      normRhs lhs meanings ((line.dropWhile notArrow).drop 1)) :
    sanitizeArrow lhs meanings (sanitizeArrow lhs meanings line) =
      sanitizeArrow lhs meanings line :=
  sanitizeArrow_idem lhs meanings line hm hlen hde hlr hmr

theorem C5_witness :
    (∀ c ∈ str "buy, purchase", isCJKChar c = false) ∧
    (normRhs (str "Net + Shell") (str "buy, purchase")
        (((str "買 = Net + Shell → Buying involves catching valuable shells in a net.").dropWhile
          notArrow).drop 1)).length ≤ 120 ∧
    sanitizeArrow (str "Net + Shell") (str "buy, purchase")
        (sanitizeArrow (str "Net + Shell") (str "buy, purchase")
          (str "買 = Net + Shell → Buying involves catching valuable shells in a net.")) =
      sanitizeArrow (str "Net + Shell") (str "buy, purchase")
        (str "買 = Net + Shell → Buying involves catching valuable shells in a net.") :=
  ⟨by decide, by decide,
    C5_theorem (str "Net + Shell") (str "buy, purchase")
      (str "買 = Net + Shell → Buying involves catching valuable shells in a net.")
      (by decide) (by decide) (by decide) (by decide) (by decide)⟩

/-- Claim C6: when the whitespace-collapsed generator text contains no
    substring matching <kanji> = ... → ..., the normalizer synthesizes the
    line "<kanji> = <lhs> → Represents <meanings, lowercased> through its
    parts.", and for inputs in the program's intended shape (stripped,
    arrow-free kanji and lhs; CJK-free, single-sentence, whitespace-normal
    lowered meanings within the cap that do not re-trigger the repetition
    strippers) the remaining normalization steps return exactly that line. -/
theorem C6_theorem (k lhs meanings text : PyStr)
    (hnomatch : findArrowLine k text = none)
    (hkne : k ≠ [])
    (hkstrip : pyStrip k = k)
    (hkarr : ∀ c ∈ k, c ≠ '→')
    (hlne : lhs ≠ [])
    (hlstrip : pyStrip lhs = lhs)
    (hlarr : ∀ c ∈ lhs, c ≠ '→')
    (hmcjk : ∀ c ∈ pyLower meanings, isCJKChar c = false)
    (hmarr : ∀ c ∈ pyLower meanings, c ≠ '→')
    (htag : noTagPair (str "Represents " ++ pyLower meanings ++ str " through its parts.") = true)
    (hnsb : noSentenceBreak
      (str "Represents " ++ pyLower meanings ++ str " through its parts.") = true)
    (hws : wsNormal (str "Represents " ++ pyLower meanings ++ str " through its parts.") = true)
    (hlen : (str "Represents " ++ pyLower meanings ++ str " through its parts.").length ≤ 120)
    (hrep1 : stripRep1 (pyStrip lhs)
      (str "Represents " ++ pyLower meanings ++ str " through its parts.") = none)
    (hrep2 : meanings ≠ [] → stripRep1 (pyStrip meanings)
      (str "Represents " ++ pyLower meanings ++ str " through its parts.") = none) :
    extractLine k lhs meanings text = synthLine k lhs meanings ∧
    (if (extractLine k lhs meanings text).contains '→' then
      sanitizeArrow lhs meanings (extractLine k lhs meanings text)
    else extractLine k lhs meanings text) = synthLine k lhs meanings := by
  constructor
  · unfold extractLine
    rw [hnomatch]
  · exact c6_synthesis k lhs meanings text hnomatch hkne hkstrip hkarr hlne hlstrip hlarr
      hmcjk hmarr htag hnsb hws hlen hrep1 hrep2

theorem C6_witness :
    (findArrowLine (str "買") (str "Sorry, I cannot help with that.") = none) ∧
    (str "買") ≠ ([] : PyStr) ∧
    pyStrip (str "買") = str "買" ∧
    (∀ c ∈ str "買", c ≠ '→') ∧
    (str "Net + Shell") ≠ ([] : PyStr) ∧
    pyStrip (str "Net + Shell") = str "Net + Shell" ∧
    (∀ c ∈ str "Net + Shell", c ≠ '→') ∧
    (∀ c ∈ pyLower (str "buy, purchase"), isCJKChar c = false) ∧
    (∀ c ∈ pyLower (str "buy, purchase"), c ≠ '→') ∧
    synthLine (str "買") (str "Net + Shell") (str "buy, purchase") =
      str "買 = Net + Shell → Represents buy, purchase through its parts." ∧
    (extractLine (str "買") (str "Net + Shell") (str "buy, purchase")
        (str "Sorry, I cannot help with that.") =
      synthLine (str "買") (str "Net + Shell") (str "buy, purchase")) ∧
    (if (extractLine (str "買") (str "Net + Shell") (str "buy, purchase")
          (str "Sorry, I cannot help with that.")).contains '→' then
      sanitizeArrow (str "Net + Shell") (str "buy, purchase")
        (extractLine (str "買") (str "Net + Shell") (str "buy, purchase")
          (str "Sorry, I cannot help with that."))
    else extractLine (str "買") (str "Net + Shell") (str "buy, purchase")
        (str "Sorry, I cannot help with that.")) =
      synthLine (str "買") (str "Net + Shell") (str "buy, purchase") := by
  refine ⟨by decide, by decide, by decide, by decide, by decide, by decide, by decide,
    by decide, by decide, by decide, ?_, ?_⟩
  · exact (C6_theorem (str "買") (str "Net + Shell") (str "buy, purchase")
      (str "Sorry, I cannot help with that.") (by decide) (by decide) (by decide) (by decide)
      (by decide) (by decide) (by decide) (by decide) (by decide) (by decide) (by decide)
      (by decide) (by decide) (by decide) (fun _ => by decide)).1
  · exact (C6_theorem (str "買") (str "Net + Shell") (str "buy, purchase")
      (str "Sorry, I cannot help with that.") (by decide) (by decide) (by decide) (by decide)
      (by decide) (by decide) (by decide) (by decide) (by decide) (by decide) (by decide)
      (by decide) (by decide) (by decide) (fun _ => by decide)).2

/-- Claim C7, counterexample: for an lhs that ends in a non-word character
    the \b in the stripper pattern fails in front of the colon, so the
    sanitized right-hand side keeps its lhs-plus-colon prefix. -/
theorem C7_counterexample :
    startsWith (str "Net +" ++ [':']) (str "Net +: catch things.") = true ∧
    startsWith (str "Net +" ++ [':'])
      (normRhs (str "Net +") (str "buy") (str "Net +: catch things.")) = true := by
  constructor
  · decide
  · decide

/-- Claim C7 (amended): the leading-repetition stripper itself guarantees
    that its output never begins with the stripped lhs immediately followed
    by a colon, provided that lhs is nonempty and ends in a word character
    (the stripper would otherwise still fire on that prefix). -/
theorem C7_theorem (pat s : PyStr) (hp : pat ≠ [])
    (hw : isWordChar (pat.getLastD ' ') = true) :
    startsWith (pat ++ [':']) (stripReps pat s) = false :=
  stripReps_no_patColon pat s hp hw

theorem C7_witness :
    (str "Net" ≠ ([] : PyStr)) ∧ isWordChar ((str "Net").getLastD ' ') = true ∧
    startsWith (str "Net" ++ [':']) (stripReps (str "Net") (str "Net: catch things.")) = false :=
  ⟨by decide, by decide,
    C7_theorem (str "Net") (str "Net: catch things.") (by decide) (by decide)⟩

/-- Claim C8: when the generator raises (modelled by a pipe that returns
    none), generate_mnemonic returns exactly the degraded fallback line
    "<kanji> = <lhs or meanings or — > → Represents <meanings or meaning,
    lowercased> through its parts."; in this model the fallback is a pure
    string construction, so it always succeeds. -/
theorem C8_theorem (kanjiData : List (PyStr × KanjiDetails)) (st : RagState)
    (search : PyStr → List Int) (kanji : PyStr) (details : KanjiDetails)
    (hfound : lookupStore kanjiData (pyStrip kanji) = some details) :
    generate_mnemonic kanjiData st search (fun _ => none) kanji =
      pyStrip kanji ++ str " = " ++
        (if !(if !details.wk_radicals.isEmpty then joinSep (str " + ") details.wk_radicals
              else joinSep (str ", ") details.meanings).isEmpty
          then (if !details.wk_radicals.isEmpty then joinSep (str " + ") details.wk_radicals
              else joinSep (str ", ") details.meanings)
          else if !(joinSep (str ", ") details.meanings).isEmpty
            then joinSep (str ", ") details.meanings
            else str "—") ++
      str " → Represents " ++
        (if !(pyLower (joinSep (str ", ") details.meanings)).isEmpty
          then pyLower (joinSep (str ", ") details.meanings)
          else str "meaning") ++
      str " through its parts." := by
  rw [generate_mnemonic_found kanjiData st search (fun _ => none) kanji details hfound]
  rfl

theorem C8_witness :
    (lookupStore [(str "買", (⟨[str "buy", str "purchase"], [str "Net", str "Shell"]⟩ :
        KanjiDetails))] (pyStrip (str "買")) =
      some (⟨[str "buy", str "purchase"], [str "Net", str "Shell"]⟩ : KanjiDetails)) ∧
    generate_mnemonic
        [(str "買", (⟨[str "buy", str "purchase"], [str "Net", str "Shell"]⟩ : KanjiDetails))]
        ⟨[], none⟩ (fun _ => []) (fun _ => none) (str "買") =
      str "買 = Net + Shell → Represents buy, purchase through its parts." := by
  constructor
  · rfl
  · have h := C8_theorem
      [(str "買", (⟨[str "buy", str "purchase"], [str "Net", str "Shell"]⟩ : KanjiDetails))]
      ⟨[], none⟩ (fun _ => []) (str "買")
      (⟨[str "buy", str "purchase"], [str "Net", str "Shell"]⟩ : KanjiDetails) rfl
    rw [h]
    decide

/-- Claim C9: building the index from a present radical store yields one
    embedding vector per radical document with the list position as the join
    key (so the document count equals the vector row count), and an absent
    store leaves the process in the valid steady state of empty documents and
    no index. -/
theorem C9_theorem (rows : List (PyStr × PyStr)) (embed : PyStr → List Int) :
    (∃ M, (ensure_radical_index (some rows) embed).faissIndex = some M ∧
      M = (ensure_radical_index (some rows) embed).radicalDocs.map embed ∧
      M.length = (ensure_radical_index (some rows) embed).radicalDocs.length) ∧
    (ensure_radical_index none embed).radicalDocs = [] ∧
    (ensure_radical_index none embed).faissIndex = none := by
  refine ⟨⟨(rows.map buildDoc).map embed, rfl, rfl, by simp [ensure_radical_index]⟩, rfl, rfl⟩

/-- Claim C10: for any search result, the retriever returns at most as many
    documents as the search produced indices (at most top_k, since faiss
    returns exactly top_k indices), every returned document is one of the
    stored documents, and out-of-range indices (such as the -1 padding) are
    discarded before list indexing, so no index error can occur. -/
theorem C10_theorem (st : RagState) (idxs : List Int) :
    (retrieve_relevant_radicals st idxs).length ≤ idxs.length ∧
    ∀ d ∈ retrieve_relevant_radicals st idxs, d ∈ st.radicalDocs := by
  unfold retrieve_relevant_radicals
  split
  · simp
  · split
    · simp
    · constructor
      · exact List.length_filterMap_le _ _
      · intro d hd
        obtain ⟨i, hi, hsome⟩ := List.mem_filterMap.mp hd
        split at hsome
        · exact List.get?_mem hsome
        · exact absurd hsome (by simp)

end Mnemo
